import Mathlib

/-!
# Verification of the ACO SAGSIN controller (testv4day3-11/aco-sagsin-sim)

A shallow embedding of the data model and the operations of the simulator:
the graph builder (`src/net/graph.py` of the backend tree), the epoch
updater (`src/net/updater.py`), the link toggling and `/route` handlers
(`src/services/controller.py`), the ACO solver (`src/aco/solver.py`,
`src/aco/objective.py`) and the path metrics (`src/lib/metrics.py`), plus
the SSE broadcast machinery of the controller.

Modelling conventions:
* Python floats are modelled as rationals (`ℚ`).  The transcendental
  functions of the numeric kernels (`sin`, `cos`, `atan2`, `sqrt`,
  `log10`, `log2`, `10 ** x`, `π`) are irrational, so they are passed in
  as a record of abstract functions (`RealOps`); every formula that uses
  them keeps the exact shape of the source.  `+inf` float results are
  represented by `Option ℚ` (`none` = infeasible / infinite cost).
* Python `dict`s are association lists with first-match lookup and
  replace-first-or-append assignment (`aset`), which reproduces dict
  semantics (unique keys, last assignment wins).
* `random.random()` is an explicit stream `ℕ → ℚ` consumed through a
  counter; claims quantify over all streams.
* Unbounded `while` loops (the ACO ant walk, the BFS work-list loop, the
  predecessor-chain reconstruction) are given explicit fuel; for the BFS
  the fuel is proven sufficient, for the ant loop exhausted fuel is
  treated as the dead-end case (which only makes the solver fail more
  often and is on the safe side of every claim proved here).
-/

namespace Sagsin

/-- `types.py`: dataclass `Node` (id, kind, lat, lon, alt_m, name);
`kind` is one of "sat" / "ground" / "air" / "sea" as a string tag. -/
structure Node where
  id : Int
  kind : String
  lat : ℚ
  lon : ℚ
  alt_m : ℚ
  name : String := ""
deriving DecidableEq, Repr

/-- `types.py`: dataclass `Link`. -/
structure Link where
  u : Int
  v : Int
  latency_ms : ℚ
  capacity_mbps : ℚ
  energy_j : ℚ
  reliability : ℚ
  enabled : Bool := true
deriving DecidableEq, Repr

/-- `types.py`: dataclass `GraphState`.  `adj` and `edge_index` are
Python dicts, embedded as association lists. -/
structure GraphState where
  nodes : List Node
  links : List Link
  adj : List (Int × List Int)
  edge_index : List ((Int × Int) × Nat)
deriving DecidableEq, Repr

/-! ## Association-list dictionaries (Python `dict` semantics) -/

/-- `d.get(k)` / `d[k]`: first entry with the key. -/
def alookup {α β : Type} [DecidableEq α] : List (α × β) → α → Option β
  | [], _ => none
  | (k, v) :: rest, key => if k = key then some v else alookup rest key

/-- `d[k] = v`: replace the value of the first entry carrying the key,
or append a fresh entry.  Keeps keys unique when used consistently. -/
def aset {α β : Type} [DecidableEq α] : List (α × β) → α → β → List (α × β)
  | [], key, val => [(key, val)]
  | (k, v) :: rest, key, val =>
    if k = key then (k, val) :: rest else (k, v) :: aset rest key val

theorem alookup_aset_self {α β : Type} [DecidableEq α]
    (m : List (α × β)) (k : α) (v : β) : alookup (aset m k v) k = some v := by
  induction m with
  | nil => simp [aset, alookup]
  | cons hd tl ih =>
    by_cases h : hd.1 = k
    · simp [aset, h, alookup]
    · simp [aset, h, alookup, ih]

theorem alookup_aset_ne {α β : Type} [DecidableEq α]
    (m : List (α × β)) (k k' : α) (v : β) (h : k ≠ k') :
    alookup (aset m k v) k' = alookup m k' := by
  induction m with
  | nil => simp [aset, alookup, h]
  | cons hd tl ih =>
    by_cases h1 : hd.1 = k
    · simp [aset, h1, alookup, h]
    · simp only [aset, h1, if_false]
      by_cases h2 : hd.1 = k'
      · simp [alookup, h2]
      · simp [alookup, h2, ih]

theorem alookup_mem {α β : Type} [DecidableEq α]
    {m : List (α × β)} {k : α} {v : β} (h : alookup m k = some v) :
    (k, v) ∈ m := by
  induction m with
  | nil => simp [alookup] at h
  | cons hd tl ih =>
    by_cases h1 : hd.1 = k
    · simp only [alookup, h1, if_true, Option.some.injEq] at h
      cases hd
      simp_all
    · simp only [alookup, h1, if_false] at h
      exact List.mem_cons_of_mem _ (ih h)

/-- Keys present after `aset` are the old keys plus the new one. -/
theorem alookup_aset_isSome {α β : Type} [DecidableEq α]
    (m : List (α × β)) (k k' : α) (v : β) :
    (alookup (aset m k v) k').isSome ↔ k' = k ∨ (alookup m k').isSome := by
  by_cases h : k = k'
  · subst h
    simp [alookup_aset_self]
  · rw [alookup_aset_ne m k k' v h]
    simp [Ne.symm h]

/-- `adj.get(u, [])`. -/
def adjGet (s : GraphState) (u : Int) : List Int :=
  (alookup s.adj u).getD []

/-! ## Numeric kernels (`src/net/link_models.py`)

The transcendental functions of Python's `math` module are abstracted
into a record so that the formulas can stay in `ℚ` while keeping the
exact shape of the source. -/

/-- Abstract interpretations of the transcendental functions used by
`link_models.py` and `lib/metrics.py`. -/
structure RealOps where
  rsin : ℚ → ℚ
  rcos : ℚ → ℚ
  ratan2 : ℚ → ℚ → ℚ
  rsqrt : ℚ → ℚ
  rlog10 : ℚ → ℚ
  rlog2 : ℚ → ℚ
  rexp10 : ℚ → ℚ
  rpi : ℚ

/-- All-zero interpretation, used to run the embedding on closed inputs. -/
def zeroOps : RealOps :=
  ⟨fun _ => 0, fun _ => 0, fun _ _ => 0, fun _ => 0, fun _ => 0, fun _ => 0,
    fun _ => 0, 0⟩

/-- `C_KM_PER_MS = 299792.458`. -/
def C_KM_PER_MS : ℚ := 299792458 / 1000

/-- `EARTH_RADIUS_KM = 6371.0`. -/
def EARTH_RADIUS_KM : ℚ := 6371

/-- `math.radians(x) = x * π / 180`. -/
def radians (O : RealOps) (x : ℚ) : ℚ := x * O.rpi / 180

/-- `haversine_km` of `link_models.py`. -/
def haversine_km (O : RealOps) (lat1 lon1 lat2 lon2 : ℚ) : ℚ :=
  let rlat1 := radians O lat1
  let rlat2 := radians O lat2
  let dlat := rlat2 - rlat1
  let dlon := radians O lon2 - radians O lon1
  let a := (O.rsin (dlat / 2)) ^ 2 + O.rcos rlat1 * O.rcos rlat2 * (O.rsin (dlon / 2)) ^ 2
  let c := 2 * O.ratan2 (O.rsqrt a) (O.rsqrt (1 - a))
  EARTH_RADIUS_KM * c

/-- `distance_km` of `link_models.py`: surface distance by haversine. -/
def distance_km (O : RealOps) (n1 n2 : Node) : ℚ :=
  haversine_km O n1.lat n1.lon n2.lat n2.lon

/-- `fspl_db` of `link_models.py`. -/
def fspl_db (O : RealOps) (d_km freq_hz : ℚ) : ℚ :=
  let dk := if d_km ≤ 0 then 1 / 1000 else d_km
  20 * O.rlog10 dk + 20 * O.rlog10 freq_hz - 14755 / 100

/-- `snr_linear` of `link_models.py`. -/
def snr_linear (O : RealOps) (fspl_db_val p_tx_dbm noise_dbm : ℚ) : ℚ :=
  let rx_dbm := p_tx_dbm - fspl_db_val
  let snr_db := rx_dbm - noise_dbm
  max (O.rexp10 (snr_db / 10)) (1 / 1000000)

/-- `capacity_mbps` of `link_models.py`. -/
def capacity_mbps (O : RealOps) (bw_hz snr_lin : ℚ) : ℚ :=
  bw_hz * O.rlog2 (1 + snr_lin) / 1000000

/-- `latency_ms` of `link_models.py`: `prop = distance_km_val / C_KM_PER_MS`,
i.e. the code divides by `299792.458` as written. -/
def latency_ms (distance_km_val proc_queue_ms : ℚ) : ℚ :=
  distance_km_val / C_KM_PER_MS + proc_queue_ms

/-- `energy_j` of `link_models.py`. -/
def energy_j (O : RealOps) (duration_ms p_tx_dbm : ℚ) (kind_src : String) : ℚ :=
  let mw := O.rexp10 (p_tx_dbm / 10)
  let w := mw / 1000
  let coeff : ℚ := if kind_src = "sat" then 3 / 2 else if kind_src = "air" then 6 / 5 else 1
  w * (duration_ms / 1000) * coeff

/-- `reliability` of `link_models.py` (pure rational arithmetic). -/
def reliability (distance_km_val : ℚ) (kind_u kind_v : String) : ℚ :=
  let base : ℚ := if kind_u = "sat" ∨ kind_v = "sat" then 9 / 10 else 1
  let base := if 0 < distance_km_val then base * max (1 / 10) (1 - distance_km_val / 5000) else base
  min (max base 0) 1

/-- `elevation_ok` of `link_models.py`: the source returns `True` on
every branch (sat links are always allowed and the final gate is
`return True`). -/
def elevation_ok (src dst : Node) (_elevation_min_deg : ℚ) : Bool :=
  if src.kind = "sat" ∨ dst.kind = "sat" then true else true

/-! ## Configuration (`src/config.py`), restricted to the fields the
embedded operations read. -/

/-- `LinkModelParams` of `config.py`. -/
structure LinkModelParams where
  freq_hz : ℚ
  bw_hz : ℚ
  p_tx_dbm : ℚ
  noise_dbm : ℚ
  proc_queue_ms : ℚ
deriving DecidableEq, Repr

/-- `AcoParams` of `config.py`.  `alpha` and `beta` are floats in the
source; their defaults (`1.0`, `3.0`) are integral, and they are only
used as exponents, so they are modelled as naturals. -/
structure AcoParams where
  ants : Nat
  iters : Nat
  alpha : Nat
  beta : Nat
  rho : ℚ
  xi : ℚ
  q0 : ℚ
  tau0 : ℚ
  mmas : Bool
  tau_min : ℚ
  tau_max : ℚ
  weights : ℚ × ℚ × ℚ × ℚ
deriving DecidableEq, Repr

/-- The slice of `Config` used by `build_graph`. -/
structure BuildCfg where
  max_range_km : List (String × ℚ)
  elevation_min_deg : ℚ
  link_model : LinkModelParams
deriving DecidableEq, Repr

/-! ## Graph builder (`aco-sagsin-be/src/net/graph.py`) -/

/-- `_max_range` of `graph.py`: the unordered kind pair selects a key of
`cfg.max_range_km`; an unknown pair (e.g. involving "sea") leaves `key`
at `None`, and `dict.get` then falls back to `500`. -/
def pairMatches (a b x y : String) : Bool :=
  (a = x ∧ b = y) ∨ (a = y ∧ b = x)

def maxRangeKey (kind_u kind_v : String) : Option String :=
  if pairMatches kind_u kind_v "air" "air" then some "air_air"
  else if pairMatches kind_u kind_v "ground" "ground" then some "ground_ground"
  else if pairMatches kind_u kind_v "ground" "air" then some "ground_air"
  else if pairMatches kind_u kind_v "ground" "sat" then some "ground_sat"
  else if pairMatches kind_u kind_v "air" "sat" then some "air_sat"
  else if pairMatches kind_u kind_v "sat" "sat" then some "sat_sat"
  else none

def maxRange (kind_u kind_v : String) (cfg : BuildCfg) : ℚ :=
  match maxRangeKey kind_u kind_v with
  | some key => (alookup cfg.max_range_km key).getD 500
  | none => 500

/-- The link record appended by `build_graph` for an admitted pair. -/
def mkLink (O : RealOps) (cfg : BuildCfg) (u v : Node) : Link :=
  let d := distance_km O u v
  let lm := cfg.link_model
  let fspl := fspl_db O d lm.freq_hz
  let snr := snr_linear O fspl lm.p_tx_dbm lm.noise_dbm
  let cap := capacity_mbps O lm.bw_hz snr
  let lat := latency_ms d lm.proc_queue_ms
  let ene := energy_j O lat lm.p_tx_dbm u.kind
  let rel := reliability d u.kind v.kind
  { u := u.id, v := v.id, latency_ms := lat, capacity_mbps := cap,
    energy_j := ene, reliability := rel, enabled := true }

/-- The admission test of `build_graph`: the pair `(u, v)` is skipped
when `d > maxRange` or when `elevation_ok` fails. -/
def admitPair (O : RealOps) (cfg : BuildCfg) (u v : Node) : Bool :=
  ¬ (distance_km O u v > maxRange u.kind v.kind cfg) ∧
    elevation_ok u v cfg.elevation_min_deg

/-- The inner `for j` loop of `build_graph`, scanning the nodes after
`u` in list order. -/
def buildLinksInner (O : RealOps) (cfg : BuildCfg) (u : Node) : List Node → List Link
  | [] => []
  | v :: rest =>
    if admitPair O cfg u v then mkLink O cfg u v :: buildLinksInner O cfg u rest
    else buildLinksInner O cfg u rest

/-- The outer `for i` loop of `build_graph`: for each node, pair it with
every later node. -/
def buildLinks (O : RealOps) (cfg : BuildCfg) : List Node → List Link
  | [] => []
  | u :: rest => buildLinksInner O cfg u rest ++ buildLinks O cfg rest

/-- `adj = {n.id: [] for n in nodes}` (dict comprehension: one key per
distinct id, every value `[]`). -/
def adjInit (nodes : List Node) : List (Int × List Int) :=
  nodes.foldl (fun m n => aset m n.id []) []

/-- `adj[key].append(x)`; `key` is always present when `build_graph`
calls this (endpoints of links are node ids), so a missing key is a
no-op in the model (Python would raise `KeyError`). -/
def adjAppend : List (Int × List Int) → Int → Int → List (Int × List Int)
  | [], _, _ => []
  | (k, l) :: rest, key, x =>
    if k = key then (k, l ++ [x]) :: rest else (k, l) :: adjAppend rest key x

/-- One step of the `for idx, e in enumerate(links)` loop of
`build_graph`: append to both adjacency lists and register both
directed keys in `edge_index`. -/
def registerLink (st : List (Int × List Int) × List ((Int × Int) × Nat))
    (idx : Nat) (e : Link) : List (Int × List Int) × List ((Int × Int) × Nat) :=
  let adj := adjAppend st.1 e.u e.v
  let adj := adjAppend adj e.v e.u
  let ei := aset st.2 (e.u, e.v) idx
  let ei := aset ei (e.v, e.u) idx
  (adj, ei)

/-- The `for idx, e in enumerate(links)` loop itself (`idx` is the
running enumeration counter). -/
def registerAll (st : List (Int × List Int) × List ((Int × Int) × Nat))
    (idx : Nat) : List Link → List (Int × List Int) × List ((Int × Int) × Nat)
  | [] => st
  | e :: rest => registerAll (registerLink st idx e) (idx + 1) rest

/-- `build_graph` of `graph.py`. -/
def build_graph (O : RealOps) (cfg : BuildCfg) (nodes : List Node) : GraphState :=
  let links := buildLinks O cfg nodes
  let st := registerAll (adjInit nodes, []) 0 links
  { nodes := nodes, links := links, adj := st.1, edge_index := st.2 }

/-! ## Epoch updater (`src/net/updater.py`) and link toggling
(`src/services/controller.py::post_toggle`) -/

/-- The `for e in state.links` loop of `update_epoch`: one
`random.random()` draw per link, in list order; a draw below `0.05`
negates the `enabled` flag. -/
def flipLinks (r : Nat → ℚ) : Nat → List Link → List Link
  | _, [] => []
  | k, l :: rest =>
    (if r k < 1 / 20 then { l with enabled := !l.enabled } else l) :: flipLinks r (k + 1) rest

/-- `update_epoch` of `updater.py`: jitters the `enabled` flags and
returns the state; nodes, `adj` and `edge_index` are untouched. -/
def update_epoch (s : GraphState) (r : Nat → ℚ) : GraphState :=
  { s with links := flipLinks r 0 s.links }

/-- `STATE.links[idx].enabled = en` (out-of-range `idx` cannot happen on
states whose `edge_index` is consistent; the model leaves the list
unchanged there). -/
def setEnabled : List Link → Nat → Bool → List Link
  | [], _, _ => []
  | l :: rest, 0, en => { l with enabled := en } :: rest
  | l :: rest, n + 1, en => l :: setEnabled rest n en

/-- `post_toggle` of `controller.py`: `none` models the 404 response. -/
def post_toggle (s : GraphState) (u v : Int) (en : Bool) : Option GraphState :=
  match alookup s.edge_index (u, v) with
  | none => none
  | some idx => some { s with links := setEnabled s.links idx en }

/-! ## Edge predicates shared by the solver and the BFS fallback -/

/-- `gs.edge_index.get((u,v))` followed by `gs.links[idx].enabled`,
the enabled-edge test both `ACO._edge_enabled` and `_bfs_path` use. -/
def edgeEnabledB (s : GraphState) (u v : Int) : Bool :=
  match alookup s.edge_index (u, v) with
  | some idx =>
    match s.links[idx]? with
    | some l => l.enabled
    | none => false
  | none => false

/-- One enabled hop as the code traverses it: `v` is listed among `u`'s
neighbours and the indexed link is enabled. -/
def stepB (s : GraphState) (u v : Int) : Bool :=
  (adjGet s u).contains v && edgeEnabledB s u v

/-- The link connects `u` and `v` (either orientation). -/
def linkMatches (l : Link) (u v : Int) : Bool :=
  (l.u = u ∧ l.v = v) ∨ (l.u = v ∧ l.v = u)

/-- Some enabled link of `s.links` connects `u` and `v`. -/
def existsEnabledLink (s : GraphState) (u v : Int) : Bool :=
  s.links.any (fun l => l.enabled && linkMatches l u v)

/-- Well-formedness tying the derived views to the link list: every
enabled link is traversable in both directions through `adj` and
`edge_index`, and every traversable hop is backed by an enabled link.
States produced by `build_graph` (with `enabled` flags later toggled in
place) satisfy it. -/
def wfB (s : GraphState) : Bool :=
  s.links.all (fun l => !l.enabled || (stepB s l.u l.v && stepB s l.v l.u)) &&
    s.adj.all (fun e => e.2.all (fun v => !edgeEnabledB s e.1 v || existsEnabledLink s e.1 v))

/-- Claim C7's invariant: both directed keys of `edge_index` resolve to
the same index, that index stores a link with exactly those endpoints,
and `adj` lists a neighbour pair exactly when some link connects it. -/
def graphConsistent (s : GraphState) : Bool :=
  (s.edge_index.all fun e =>
    match alookup s.edge_index (e.1.1, e.1.2), alookup s.edge_index (e.1.2, e.1.1) with
    | some i, some j =>
      i = j && (match s.links[i]? with
        | some l => linkMatches l e.1.1 e.1.2
        | none => false)
    | _, _ => false) &&
  (s.links.all fun l => (adjGet s l.u).contains l.v && (adjGet s l.v).contains l.u) &&
  (s.adj.all fun e => e.2.all fun v => s.links.any fun l => linkMatches l e.1 v)

/-! ## BFS fallback (`controller.py::_bfs_path`) -/

/-- The reconstruction loop of `_bfs_path` (`while cur is not None`),
here building the list front-first instead of appending and reversing.
The fuel is instantiated with `prev.length`, which suffices because the
predecessor chains the search builds are duplicate-free. -/
def reconstructAux (prev : List (Int × Option Int)) : Nat → Int → List Int → List Int
  | 0, cur, acc => cur :: acc
  | f + 1, cur, acc =>
    match alookup prev cur with
    | some (some u) => reconstructAux prev f u (cur :: acc)
    | _ => cur :: acc

def reconstruct (prev : List (Int × Option Int)) (v : Int) : List Int :=
  reconstructAux prev prev.length v []

/-- The `for v in gs.adj.get(u, [])` loop of `_bfs_path`: skip hops whose
link is missing or disabled, skip visited nodes, otherwise mark visited,
record the predecessor, return the reconstructed path if `v` is the
destination, and enqueue `v` at the back otherwise. -/
def bfsScan (s : GraphState) (dst u : Int) :
    List Int → List Int → List (Int × Option Int) → List Int →
    (List Int × List (Int × Option Int) × List Int) ⊕ List Int
  | [], visited, prev, dq => Sum.inl (visited, prev, dq)
  | v :: vs, visited, prev, dq =>
    if edgeEnabledB s u v = false then bfsScan s dst u vs visited prev dq
    else if visited.contains v then bfsScan s dst u vs visited prev dq
    else
      let prev' := aset prev v (some u)
      if v = dst then Sum.inr (reconstruct prev' v)
      else bfsScan s dst u vs (v :: visited) prev' (dq ++ [v])

/-- The `while dq` work-list loop of `_bfs_path`.  The fuel is proven
sufficient below (each round pops one node and only enqueues
freshly-visited ones). -/
def bfsLoop (s : GraphState) (dst : Int) :
    Nat → List Int → List (Int × Option Int) → List Int → List Int
  | _, _, _, [] => []
  | 0, _, _, _ :: _ => []
  | f + 1, visited, prev, u :: rest =>
    match bfsScan s dst u (adjGet s u) visited prev rest with
    | Sum.inr path => path
    | Sum.inl (v', p', d') => bfsLoop s dst f v' p' d'

/-- Every node id occurring in `adj` (keys and neighbour lists): the
candidate universe of the search, used to size the fuel. -/
def universeList (s : GraphState) : List Int :=
  s.adj.foldr (fun e acc => e.1 :: e.2 ++ acc) []

def bfsFuel (s : GraphState) : Nat := 2 * (universeList s).length + 2

/-- `_bfs_path` of `controller.py`. -/
def bfs_path (s : GraphState) (src dst : Int) : List Int :=
  if src = dst then [src]
  else bfsLoop s dst (bfsFuel s) [src] [(src, none)] [src]

/-! ## Paths and reachability over enabled edges -/

/-- A non-empty node list from `src` to `dst` every hop of which is
traversable (`adj` membership plus an enabled indexed link). -/
def ValidPath (s : GraphState) (src dst : Int) (p : List Int) : Prop :=
  p ≠ [] ∧ p.head? = some src ∧ p.getLast? = some dst ∧
    List.Chain' (fun a b => stepB s a b = true) p

/-- Reachability along traversable hops. -/
def Reach (s : GraphState) (src dst : Int) : Prop :=
  Relation.ReflTransGen (fun a b => stepB s a b = true) src dst

/-- A non-empty node list from `src` to `dst` every hop of which is
covered by an enabled link of `s.links` — the claim's notion of “a path
using only links with `enabled = true`”. -/
def LinksPath (s : GraphState) (src dst : Int) (p : List Int) : Prop :=
  p ≠ [] ∧ p.head? = some src ∧ p.getLast? = some dst ∧
    List.Chain' (fun a b => existsEnabledLink s a b = true) p

/-! ## Objective (`src/aco/objective.py`) -/

/-- `normalize` of `objective.py`. -/
def normalize (value min_v max_v : ℚ) : ℚ :=
  if max_v ≤ min_v then 0 else min (max ((value - min_v) / (max_v - min_v)) 0) 1

/-- Python `min` over a non-empty list (callers pad empty lists first). -/
def pymin : List ℚ → ℚ
  | [] => 0
  | x :: xs => xs.foldl min x

/-- Python `max` over a non-empty list. -/
def pymax : List ℚ → ℚ
  | [] => 0
  | x :: xs => xs.foldl max x

/-- `compute_edge_costs` of `objective.py` with the weights already
resolved (`weights_override or config weights`).  `ℚ`'s total division
(`x / 0 = 0`) stands in for Python's float division, which can only
diverge from it on graphs whose maximal enabled capacity is exactly
zero (where Python would raise). -/
def compute_edge_costs (s : GraphState) (w : ℚ × ℚ × ℚ × ℚ) :
    List ((Int × Int) × ℚ) :=
  let enabled := s.links.filter (fun e => e.enabled)
  let lats := enabled.map (fun e => e.latency_ms)
  let caps := enabled.map (fun e => e.capacity_mbps)
  let enes := enabled.map (fun e => e.energy_j)
  let rels := enabled.map (fun e => e.reliability)
  let lats := if lats = [] then [0] else lats
  let caps := if caps = [] then [1] else caps
  let enes := if enes = [] then [0] else enes
  let rels := if rels = [] then [1] else rels
  let min_lat := pymin lats
  let max_lat := pymax lats
  let min_cap := pymin caps
  let max_cap := pymax caps
  let min_ene := pymin enes
  let max_ene := pymax enes
  let min_rel := pymin rels
  let max_rel := pymax rels
  let (a, b, c, d) := w
  enabled.foldl
    (fun m e =>
      let lat_n := normalize e.latency_ms min_lat max_lat
      let inv_cap_n := normalize (1 / max e.capacity_mbps (1 / 1000000))
        (1 / max_cap) (1 / max min_cap (1 / 1000000))
      let ene_n := normalize e.energy_j min_ene max_ene
      let inv_rel_n := normalize (1 - e.reliability) (1 - max_rel) (1 - min_rel)
      let cost := a * lat_n + b * inv_cap_n + c * ene_n + d * inv_rel_n + 1 / 1000000
      aset (aset m (e.u, e.v) cost) (e.v, e.u) cost)
    []

/-! ## ACO solver (`src/aco/solver.py`)

The solver's `random.random()` draws come from a stream `Nat → ℚ`
consumed through a counter; `best_path = [] , best_cost = inf` is
represented by `none`.  `alpha` / `beta` are natural exponents (see
`AcoParams`), and the fuel of the ant walk stands in for the
termination argument of the `while cur != dst` loop (the `visited` set
grows at every step); exhausting it counts as a dead end. -/

/-- The pheromone table (`self.tau`). -/
abbrev Tau := List ((Int × Int) × ℚ)

/-- Solver environment: the graph snapshot, the parameters and the
per-call cost map (`self.costs`). -/
structure AcoEnv where
  gs : GraphState
  cfg : AcoParams
  costs : List ((Int × Int) × ℚ)

/-- `self.tau[(u,v)]`; the key is always present at the call sites
(`tau` is keyed exactly by `costs`), so the default is never used. -/
def tget (t : Tau) (cfg : AcoParams) (k : Int × Int) : ℚ :=
  (alookup t k).getD cfg.tau0

/-- `self.costs[(u,v)]`; likewise always present at the call sites. -/
def cget (E : AcoEnv) (k : Int × Int) : ℚ :=
  (alookup E.costs k).getD 0

/-- `ACO._eta`: `1 / max(cost, 1e-9)`. -/
def eta (E : AcoEnv) (u v : Int) : ℚ :=
  1 / max (cget E (u, v)) (1 / 1000000000)

/-- The pseudo-random-proportional score `τ^α · η^β`. -/
def score (E : AcoEnv) (tau : Tau) (u v : Int) : ℚ :=
  (tget tau E.cfg (u, v)) ^ E.cfg.alpha * (eta E u v) ^ E.cfg.beta

/-- `ACO._neighbors`: neighbours of `u` with a cost entry and an enabled
indexed link. -/
def aNeighbors (E : AcoEnv) (u : Int) : List Int :=
  (adjGet E.gs u).filter (fun v => (alookup E.costs (u, v)).isSome && edgeEnabledB E.gs u v)

/-- Python `max(nbrs, key=f)`: first element attaining the maximum. -/
def pymaxBy (f : Int → ℚ) : List Int → Option Int
  | [] => none
  | x :: xs => some (xs.foldl (fun best y => if f y > f best then y else best) x)

/-- `random.choice(nbrs)`: some index selected from the draw. -/
def pyChoice (nbrs : List Int) (r : ℚ) : Int :=
  nbrs.getD (min (Int.toNat ⌊r * nbrs.length⌋) (nbrs.length - 1)) 0

/-- The cumulative-sum scan of the proportional selection (`v` defaults
to the last neighbour before the loop). -/
def rouletteGo (r ssum : ℚ) : List (Int × ℚ) → ℚ → Int → Int
  | [], _, v => v
  | (vv, sc) :: rest, acc, v =>
    let acc' := acc + sc / ssum
    if r ≤ acc' then vv else rouletteGo r ssum rest acc' v

/-- The `# select next` block of `ACO.solve`: one draw decides
exploitation vs. exploration; the exploration branch consumes one more
draw (for `random.choice` the model also charges one draw for the
library's internal randomness).  Returns the chosen neighbour and the
new stream position. -/
def selectNext (E : AcoEnv) (tau : Tau) (cur : Int) (nbrs : List Int)
    (r : Nat → ℚ) (k : Nat) : Int × Nat :=
  if r k < E.cfg.q0 then
    ((pymaxBy (fun x => score E tau cur x) nbrs).getD 0, k + 1)
  else
    let scores := nbrs.map (fun v => score E tau cur v)
    let ssum := scores.sum
    if ssum ≤ 0 then (pyChoice nbrs (r (k + 1)), k + 2)
    else (rouletteGo (r (k + 1)) ssum (nbrs.zip scores) 0 ((nbrs.getLast?).getD 0), k + 2)

/-- The `while cur != dst` walk of one ant, threading the pheromone
table (local updates are visible to later ants) and the stream
position. -/
def antWalk (E : AcoEnv) (r : Nat → ℚ) (dst : Int) :
    Nat → Int → List Int → List Int → ℚ → Tau → Nat →
    Option (List Int × ℚ) × Tau × Nat
  | 0, cur, _, path, costAcc, tau, k =>
    if cur = dst then (some (path, costAcc), tau, k) else (none, tau, k)
  | f + 1, cur, visited, path, costAcc, tau, k =>
    if cur = dst then (some (path, costAcc), tau, k)
    else
      let nbrs := (aNeighbors E cur).filter (fun v => !visited.contains v)
      if nbrs = [] then (none, tau, k)
      else
        let vk := selectNext E tau cur nbrs r k
        let v := vk.1
        let tau' := aset tau (cur, v)
          ((1 - E.cfg.xi) * tget tau E.cfg (cur, v) + E.cfg.xi * E.cfg.tau0)
        antWalk E r dst f v (v :: visited) (path ++ [v]) (costAcc + cget E (cur, v)) tau' vk.2

/-- Fuel for one ant walk; the Python loop needs no fuel because
`visited` grows every step, and this bound exceeds the number of
distinct reachable ids. -/
def walkFuel (s : GraphState) : Nat := (universeList s).length + 1

/-- The `for _a in range(ants)` loop with the best-so-far update
(`if path and cost_acc < best_cost`). -/
def runAnts (E : AcoEnv) (r : Nat → ℚ) (src dst : Int) :
    Nat → Option (List Int × ℚ) → Tau → Nat →
    Option (List Int × ℚ) × Tau × Nat
  | 0, best, tau, k => (best, tau, k)
  | n + 1, best, tau, k =>
    let res := antWalk E r dst (walkFuel E.gs) src [src] [src] 0 tau k
    let best' := match res.1 with
      | none => best
      | some (p, c) =>
        match best with
        | none => some (p, c)
        | some (bp, bc) => if c < bc then some (p, c) else some (bp, bc)
    runAnts E r src dst n best' res.2.1 res.2.2

/-- Consecutive pairs of a path (`best_path[i], best_path[i+1]`). -/
def pathPairs : List Int → List (Int × Int)
  | [] => []
  | [_] => []
  | a :: b :: rest => (a, b) :: pathPairs (b :: rest)

/-- The `# global update` block: reinforcement of both directions of
every edge of the best path (skipped while no ant has succeeded). -/
def globalUpdate (E : AcoEnv) (best : Option (List Int × ℚ)) (tau : Tau) : Tau :=
  match best with
  | none => tau
  | some (p, c) =>
    let delta := 1 / max c (1 / 1000000000)
    (pathPairs p).foldl
      (fun t uv =>
        let t := aset t uv ((1 - E.cfg.rho) * tget t E.cfg uv + E.cfg.rho * delta)
        aset t (uv.2, uv.1) ((1 - E.cfg.rho) * tget t E.cfg (uv.2, uv.1) + E.cfg.rho * delta))
      tau

/-- The MMAS clamp (`if mmas: ... min(max(τ, τ_min), τ_max)`). -/
def clampTau (E : AcoEnv) (tau : Tau) : Tau :=
  if E.cfg.mmas then
    tau.map (fun kv => (kv.1, min (max kv.2 E.cfg.tau_min) E.cfg.tau_max))
  else tau

/-- One iteration of `ACO.solve`: all ants, then the global update,
then the MMAS clamp. -/
def acoIter (E : AcoEnv) (r : Nat → ℚ) (src dst : Int)
    (st : Option (List Int × ℚ) × Tau × Nat) :
    Option (List Int × ℚ) × Tau × Nat :=
  let out := runAnts E r src dst E.cfg.ants st.1 st.2.1 st.2.2
  (out.1, clampTau E (globalUpdate E out.1 out.2.1), out.2.2)

/-- The `for _ in range(iters)` loop. -/
def solveLoop (E : AcoEnv) (r : Nat → ℚ) (src dst : Int) :
    Nat → Option (List Int × ℚ) × Tau × Nat → Option (List Int × ℚ) × Tau × Nat
  | 0, st => st
  | n + 1, st => solveLoop E r src dst n (acoIter E r src dst st)

/-- The environment and initial pheromone table of `ACO.__init__`. -/
def acoEnv (s : GraphState) (cfg : AcoParams) (wopt : Option (ℚ × ℚ × ℚ × ℚ)) : AcoEnv :=
  ⟨s, cfg, compute_edge_costs s (wopt.getD cfg.weights)⟩

def tauInit (E : AcoEnv) : Tau :=
  E.costs.map (fun kv => (kv.1, E.cfg.tau0))

/-- `ACO.solve`: `none` models the `([], float('inf'))` outcome. -/
def ACO_solve (s : GraphState) (cfg : AcoParams) (wopt : Option (ℚ × ℚ × ℚ × ℚ))
    (r : Nat → ℚ) (src dst : Int) : Option (List Int × ℚ) :=
  let E := acoEnv s cfg wopt
  (solveLoop E r src dst cfg.iters (none, tauInit E, 0)).1

/-! ## Path metrics (`aco-sagsin-be/src/lib/metrics.py`)

The controller calls `path_latency_ms_for_state` and
`path_throughput_mbps_for_state` with every keyword argument left at its
default, so the defaults are inlined at the call boundary here
(`packet_bytes = 1500`, `f_ghz = 2.4`, `bw_hz = 1e6`, `pt_dbm = 30`,
`gt_dbi = gr_dbi = 0`, `nf_db = 5`, `phy/mac/code = 0.8/0.9/0.9`,
`proc_ms = 1`, `queue_ms = 0`). -/

def C_LIGHT_MPS : ℚ := 299792458

def EARTH_RADIUS_M : ℚ := 6371000

/-- `deg2rad` of `metrics.py`. -/
def deg2rad (O : RealOps) (d : ℚ) : ℚ := d * O.rpi / 180

/-- The inner `to_ecef` of `slant_range_m`. -/
def to_ecef (O : RealOps) (lat lon alt : ℚ) : ℚ × ℚ × ℚ :=
  let lat_r := deg2rad O lat
  let lon_r := deg2rad O lon
  let rr := EARTH_RADIUS_M + alt
  (rr * O.rcos lat_r * O.rcos lon_r, rr * O.rcos lat_r * O.rsin lon_r, rr * O.rsin lat_r)

/-- `slant_range_m` of `metrics.py`. -/
def slant_range_m (O : RealOps) (a b : Node) : ℚ :=
  let p1 := to_ecef O a.lat a.lon a.alt_m
  let p2 := to_ecef O b.lat b.lon b.alt_m
  let dx := p1.1 - p2.1
  let dy := p1.2.1 - p2.2.1
  let dz := p1.2.2 - p2.2.2
  O.rsqrt (dx * dx + dy * dy + dz * dz)

/-- `fspl_db_km_ghz` of `metrics.py`. -/
def fspl_db_km_ghz (O : RealOps) (d_km f_ghz : ℚ) : ℚ :=
  if d_km ≤ 0 ∨ f_ghz ≤ 0 then 0
  else 20 * O.rlog10 d_km + 20 * O.rlog10 f_ghz + 9245 / 100

/-- `thermal_noise_dbm` of `metrics.py` (defaults inlined). -/
def thermal_noise_dbm (O : RealOps) (bw_hz : ℚ) : ℚ :=
  if bw_hz ≤ 0 then -1000000000 else -174 + 10 * O.rlog10 bw_hz + 5

/-- `db_to_linear` of `metrics.py`. -/
def db_to_linear (O : RealOps) (x_db : ℚ) : ℚ := O.rexp10 (x_db / 10)

/-- `shannon_capacity_bps` of `metrics.py`. -/
def shannon_capacity_bps (O : RealOps) (bw_hz snr_lin : ℚ) : ℚ :=
  if bw_hz ≤ 0 then 0 else bw_hz * O.rlog2 (1 + max 0 snr_lin)

/-- `link_throughput_bps_from_budget` of `metrics.py` at the call-site
defaults (`f_ghz = 2.4`, `bw_hz = 1e6`, `pt_dbm = 30`, gains 0,
`nf_db = 5`, efficiencies `0.8 · 0.9 · 0.9`). -/
def link_throughput_bps_from_budget (O : RealOps) (d_m : ℚ) : ℚ :=
  let d_km := max (1 / 1000000) (d_m / 1000)
  let fspl := fspl_db_km_ghz O d_km (12 / 5)
  let pr_dbm := 30 + 0 + 0 - fspl
  let n_dbm := thermal_noise_dbm O 1000000
  let snr_db := pr_dbm - n_dbm
  let snr_lin := db_to_linear O snr_db
  let c := shannon_capacity_bps O 1000000 snr_lin
  let eff := max 0 (8 / 10 : ℚ) * max 0 (9 / 10 : ℚ) * max 0 (9 / 10 : ℚ)
  max 0 (eff * c)

/-- `transmission_delay_ms`; the `rate ≤ 0` guard returns `inf` in the
source, but every call passes `max(1.0, link_bps)`, so that branch is
unreachable and modelled as `0`. -/
def transmission_delay_ms (packet_bytes rate_bps : ℚ) : ℚ :=
  let bits := packet_bytes * 8
  if rate_bps ≤ 0 then 0 else bits / rate_bps * 1000

/-- `propagation_delay_ms` of `metrics.py`. -/
def propagation_delay_ms (distance_m : ℚ) : ℚ :=
  distance_m / C_LIGHT_MPS * 1000

/-- `hop_latency_ms` of `metrics.py` at its call-site defaults
(`proc_ms = 1`, `queue_ms = 0`). -/
def hop_latency_ms (packet_bytes rate_bps distance_m : ℚ) : ℚ :=
  transmission_delay_ms packet_bytes rate_bps + propagation_delay_ms distance_m +
    max 0 (1 : ℚ) + max 0 (0 : ℚ)

/-- `next((n for n in nodes if n.id == u_id), None)`. -/
def findNode (nodes : List Node) (i : Int) : Option Node :=
  nodes.find? (fun n => n.id = i)

/-- The per-hop latency recomputed from the two endpoints' positions
(the body of the loop of `path_latency_ms_for_state`). -/
def hopLatency (O : RealOps) (a b : Node) : ℚ :=
  let d := slant_range_m O a b
  hop_latency_ms 1500 (max 1 (link_throughput_bps_from_budget O d)) d

/-- The per-hop capacity (bps) recomputed from positions (the body of
the loop of `path_throughput_mbps_for_state`). -/
def hopCapacityBps (O : RealOps) (a b : Node) : ℚ :=
  link_throughput_bps_from_budget O (slant_range_m O a b)

/-- `path_latency_ms_for_state` of `metrics.py` (pairs whose endpoints
are missing from `nodes` are skipped, as in the source). -/
def path_latency_ms_for_state (O : RealOps) (path : List Int) (nodes : List Node) : ℚ :=
  if path.length < 2 then 0
  else
    (pathPairs path).foldl
      (fun total uv =>
        match findNode nodes uv.1, findNode nodes uv.2 with
        | some a, some b => total + hopLatency O a b
        | _, _ => total)
      0

/-- `path_throughput_mbps_for_state` of `metrics.py`. -/
def path_throughput_mbps_for_state (O : RealOps) (path : List Int) (nodes : List Node) : ℚ :=
  if path.length < 2 then 0
  else
    let per_link := (pathPairs path).filterMap
      (fun uv =>
        match findNode nodes uv.1, findNode nodes uv.2 with
        | some a, some b => some (hopCapacityBps O a b)
        | _, _ => none)
    if per_link = [] then 0 else pymin per_link / 1000000

/-! ## `/route` (`controller.py::post_route`) -/

/-- The JSON body of a `/route` response: HTTP 200 with the path, cost
and recomputed metrics, or HTTP 422 (`unprocessable`).  No other status
exists on the success path of the handler. -/
inductive RouteResp where
  | ok (path : List Int) (cost : ℚ) (latency_ms throughput_mbps : ℚ)
  | unprocessable
deriving DecidableEq, Repr

/-- The approximate cost of the BFS fallback path: per-edge objective
costs where available, `1.0` otherwise. -/
def fallbackCost (costs : List ((Int × Int) × ℚ)) (p : List Int) : ℚ :=
  (pathPairs p).foldl (fun acc uv => acc + (alookup costs uv).getD 1) 0

/-- `post_route` of `controller.py` (the handler body once the state
lock is held and `STATE` is present; `weights` is the already-parsed
optional override).  The `not path or not isfinite(cost)` guard is the
`none` case of `ACO_solve`. -/
def post_route (O : RealOps) (cfg : AcoParams) (s : GraphState) (r : Nat → ℚ)
    (src dst : Int) (wopt : Option (ℚ × ℚ × ℚ × ℚ)) : RouteResp :=
  match ACO_solve s cfg wopt r src dst with
  | some pc =>
    RouteResp.ok pc.1 pc.2 (path_latency_ms_for_state O pc.1 s.nodes)
      (path_throughput_mbps_for_state O pc.1 s.nodes)
  | none =>
    let p := bfs_path s src dst
    if p = [] then RouteResp.unprocessable
    else
      let costs := compute_edge_costs s (wopt.getD cfg.weights)
      RouteResp.ok p (fallbackCost costs p) (path_latency_ms_for_state O p s.nodes)
        (path_throughput_mbps_for_state O p s.nodes)

/-! ## SSE subscriber queues (`controller.py::_subscribe`, `_broadcast`)

`queue.Queue` is a FIFO whose `put_nowait` raises `Full` exactly when
`0 < maxsize ≤ len(items)`; `maxsize = 0` means unlimited.  `_broadcast`
snapshots the subscriber list under `SUB_LOCK` and then calls
`put_nowait` on each queue, swallowing any exception for that
subscriber alone. -/

structure SQueue where
  maxsize : Nat
  items : List String
deriving DecidableEq, Repr

/-- The queue `_subscribe` registers: `queue.Queue()` — default
`maxsize = 0`, i.e. unbounded. -/
def subscriberQueue : SQueue := ⟨0, []⟩

/-- `q.put_nowait(x)`: `none` models the `Full` exception. -/
def put_nowait (q : SQueue) (x : String) : Option SQueue :=
  if 0 < q.maxsize ∧ q.maxsize ≤ q.items.length then none
  else some { q with items := q.items ++ [x] }

/-- `_subscribe`: append a fresh default queue to the subscriber list. -/
def subscribe (subs : List SQueue) : List SQueue := subs ++ [subscriberQueue]

/-- `_broadcast`'s per-subscriber loop over the snapshot: a failed
`put_nowait` leaves that subscriber's queue as it was. -/
def broadcast (subs : List SQueue) (frame : String) : List SQueue :=
  subs.map (fun q => (put_nowait q frame).getD q)

/-- `n` broadcasts into a single fresh subscriber. -/
def broadcastN (frame : String) : Nat → List SQueue
  | 0 => subscribe []
  | n + 1 => broadcast (broadcastN frame n) frame

/-! ## Send-packet progress events (`controller.py::post_send_packet`)

`_simulate` runs in its own thread and emits, for the `i`-th node of
the path, a `pending` frame followed by a `success` frame carrying the
cumulative latency; `_tcp_relay` runs in a second thread and, when the
first-hop TCP connect succeeds, emits one more `pending` frame for
`path[0]`.  The SSE stream of a session is therefore an arbitrary
interleaving of the two emission sequences. -/

structure Evt where
  status : String
  sessionId : String
  nodeId : Int
  cumulativeLatencyMs : ℚ
  message : Option String
deriving DecidableEq, Repr

/-- `_link_latency` of `_simulate`: forward key first, then the reverse
key; missing key or a lookup error yields `0.0` (the `try`/`except`
around the attribute read). -/
def linkLatencySnap (ei : List ((Int × Int) × Nat)) (links : List Link) (u v : Int) : ℚ :=
  match alookup ei (u, v) with
  | some idx => ((links[idx]?).map (fun l => l.latency_ms)).getD 0
  | none =>
    match alookup ei (v, u) with
    | some idx => ((links[idx]?).map (fun l => l.latency_ms)).getD 0
    | none => 0

/-- The loop body of `_simulate` for hop indices `≥ 1` (`prev` is the
preceding node, `cum` the cumulative latency up to it).  A `pending`
frame for `i > 0` carries no message (the source stores `None` under
the key); a `success` frame carries the message only at `dst`. -/
def simulateAux (sid : String) (msg : Option String) (dst : Int)
    (ei : List ((Int × Int) × Nat)) (links : List Link) :
    Int → ℚ → List Int → List Evt
  | _, _, [] => []
  | prev, cum, v :: rest =>
    let cum' := cum + linkLatencySnap ei links prev v
    ⟨"pending", sid, v, cum', none⟩ ::
      ⟨"success", sid, v, cum', if v = dst then msg else none⟩ ::
        simulateAux sid msg dst ei links v cum' rest

/-- The full emission sequence of the `_simulate` thread. -/
def simulateEvents (sid : String) (msg : Option String) (dst : Int)
    (ei : List ((Int × Int) × Nat)) (links : List Link) (path : List Int) : List Evt :=
  match path with
  | [] => []
  | v0 :: rest =>
    ⟨"pending", sid, v0, 0, msg⟩ ::
      ⟨"success", sid, v0, 0, if v0 = dst then msg else none⟩ ::
        simulateAux sid msg dst ei links v0 0 rest

/-- The emission of the `_tcp_relay` thread: one extra `pending` frame
for `path[0]` when the path has at least two nodes and the first-hop
TCP connect succeeds (`connectOk` stands for that external outcome). -/
def tcpRelayEvents (sid : String) (msg : Option String) (path : List Int)
    (connectOk : Bool) : List Evt :=
  if 2 ≤ path.length ∧ connectOk then
    [⟨"pending", sid, path.headI, 0, msg⟩]
  else []

/-- All interleavings of two emission sequences: the possible orders in
which two unsynchronised threads' frames reach the broadcaster. -/
inductive Interleaving : List Evt → List Evt → List Evt → Prop
  | nil : Interleaving [] [] []
  | left {x xs ys zs} : Interleaving xs ys zs → Interleaving (x :: xs) ys (x :: zs)
  | right {y xs ys zs} : Interleaving xs ys zs → Interleaving xs (y :: ys) (y :: zs)

/-! ## Concrete fixtures

A two-node graph with one enabled link, in the shape `build_graph`
produces (used to exercise the theorems on closed inputs), plus small
states for the counterexamples. -/

def exNodeA : Node := ⟨0, "ground", 0, 0, 0, "g0"⟩

def exNodeB : Node := ⟨1, "ground", 0, 1 / 10, 0, "g1"⟩

def exLink : Link := ⟨0, 1, 5, 10, 1, 9 / 10, true⟩

def exState : GraphState :=
  ⟨[exNodeA, exNodeB], [exLink], [(0, [1]), (1, [0])], [((0, 1), 0), ((1, 0), 0)]⟩

def exCfg : AcoParams :=
  ⟨1, 1, 1, 1, 1 / 5, 1 / 10, 1 / 5, 1 / 5, true, 1 / 100, 2, (1 / 2, 1 / 5, 1 / 5, 1 / 10)⟩

def exR : Nat → ℚ := fun _ => 0

/-- Like `exCfg` but with zero iterations: `ACO.solve` then returns
`([], inf)` by construction and `/route` exercises the BFS fallback. -/
def exCfg0 : AcoParams :=
  ⟨1, 0, 1, 1, 1 / 5, 1 / 10, 1 / 5, 1 / 5, true, 1 / 100, 2, (1 / 2, 1 / 5, 1 / 5, 1 / 10)⟩

/-- Like `exCfg` but with zero ants: one `acoIter` then leaves the
pheromone table at its `tauInit` values and the MMAS clamp's output is
a syntactically explicit list. -/
def exCfgA0 : AcoParams :=
  ⟨0, 1, 1, 1, 1 / 5, 1 / 10, 1 / 5, 1 / 5, true, 1 / 100, 2, (1 / 2, 1 / 5, 1 / 5, 1 / 10)⟩

/-- The `None` stand-in of `next(..., None)` consumers. -/
def defaultNode : Node := ⟨0, "", 0, 0, 0, ""⟩

/-- A state holding a satellite and an air node (no links), for the
epoch-updater counterexample. -/
def exSatState : GraphState :=
  ⟨[⟨2, "sat", 0, 1 / 5, 550000, "sat-2"⟩, ⟨3, "air", 10, 20, 10000, "air-3"⟩],
    [], [(2, []), (3, [])], []⟩

/-- Build configuration with the default ground-ground range. -/
def cexBuildCfg : BuildCfg :=
  ⟨[("ground_ground", 500)], 10, ⟨2400000000, 20000000, 20, -100, 2⟩⟩

/-- Two nearby ground nodes listed in decreasing id order. -/
def cexNodeHigh : Node := ⟨5, "ground", 0, 0, 0, ""⟩

def cexNodeLow : Node := ⟨3, "ground", 0, 1 / 10, 0, ""⟩

/-- Claim C8's ordering property of a single-session event trace `t`
relative to `path`: every `pending` frame of hop `i` precedes every
`success` frame of hop `i`, and every `success` frame of hop `i`
precedes every frame of hop `i + 1` (hops are identified by the node id
they carry). -/
def HopOrdered (t : List Evt) (path : List Int) : Prop :=
  (∀ (a b i : Nat) (ea eb : Evt), t[a]? = some ea → t[b]? = some eb →
    ea.status = "pending" → eb.status = "success" →
    path[i]? = some ea.nodeId → path[i]? = some eb.nodeId → a < b) ∧
  (∀ (a b i : Nat) (ea eb : Evt), t[a]? = some ea → t[b]? = some eb →
    ea.status = "success" →
    path[i]? = some ea.nodeId → path[i + 1]? = some eb.nodeId → a < b)

/-! # Theorems -/

/-! ## C6 — MMAS pheromone bounds -/

/-- C6: in `ACO.solve` with MMAS enabled, after the global pheromone
update of every iteration (which the source immediately follows with
the `[τ_min, τ_max]` clamp inside the same iteration), every entry of
the pheromone table lies in `[τ_min, τ_max]` — provided the configured
bounds are ordered (`τ_min ≤ τ_max`), which holds for the defaults
`0.01 ≤ 2.0`. -/
theorem aco_iteration_mmas_clamped (E : AcoEnv) (r : Nat → ℚ) (src dst : Int)
    (st : Option (List Int × ℚ) × Tau × Nat)
    (hm : E.cfg.mmas = true) (hb : E.cfg.tau_min ≤ E.cfg.tau_max) :
    ∀ kv ∈ (acoIter E r src dst st).2.1, E.cfg.tau_min ≤ kv.2 ∧ kv.2 ≤ E.cfg.tau_max := by
  intro kv hkv
  have hclamp : (acoIter E r src dst st).2.1 =
      clampTau E (globalUpdate E (runAnts E r src dst E.cfg.ants st.1 st.2.1 st.2.2).1
        (runAnts E r src dst E.cfg.ants st.1 st.2.1 st.2.2).2.1) := rfl
  rw [hclamp, clampTau, hm, if_pos rfl] at hkv
  obtain ⟨ab, _, hab⟩ := List.mem_map.mp hkv
  subst hab
  exact ⟨le_min (le_max_right _ _) hb, min_le_right _ _⟩

/-- C6 witness: after one concrete iteration on the two-node fixture,
the entry of the pheromone table at key `(0, 1)` lies in the configured
`[τ_min, τ_max]` band. -/
theorem aco_iteration_mmas_clamped_witness :
    (acoEnv exState exCfgA0 none).cfg.tau_min ≤
        min (max exCfgA0.tau0 exCfgA0.tau_min) exCfgA0.tau_max ∧
      min (max exCfgA0.tau0 exCfgA0.tau_min) exCfgA0.tau_max ≤
        (acoEnv exState exCfgA0 none).cfg.tau_max := by
  have hlist : (acoIter (acoEnv exState exCfgA0 none) exR 0 1
      (none, tauInit (acoEnv exState exCfgA0 none), 0)).2.1 =
      [(((0 : Int), (1 : Int)), min (max exCfgA0.tau0 exCfgA0.tau_min) exCfgA0.tau_max),
       (((1 : Int), (0 : Int)), min (max exCfgA0.tau0 exCfgA0.tau_min) exCfgA0.tau_max)] := rfl
  have hmem : (((0 : Int), (1 : Int)),
      min (max exCfgA0.tau0 exCfgA0.tau_min) exCfgA0.tau_max) ∈
      (acoIter (acoEnv exState exCfgA0 none) exR 0 1
        (none, tauInit (acoEnv exState exCfgA0 none), 0)).2.1 := by
    rw [hlist]
    exact List.mem_cons_self _ _
  exact aco_iteration_mmas_clamped (acoEnv exState exCfgA0 none) exR 0 1
    (none, tauInit (acoEnv exState exCfgA0 none), 0) rfl
    (by norm_num [acoEnv, exCfgA0])
    (((0 : Int), (1 : Int)), min (max exCfgA0.tau0 exCfgA0.tau_min) exCfgA0.tau_max) hmem

/-! ## C9 — subscriber queues (corrected: they are unbounded) -/

/-- C9 counterexample: the queue `_subscribe` registers is
`queue.Queue()` with `maxsize = 0`, which is **unbounded**: no bound
`c` caps the queue length across repeated broadcasts, so no frame is
ever dropped for a slow subscriber. -/
theorem sse_queue_unbounded_cex :
    subscriberQueue.maxsize = 0 ∧
      ¬ ∃ c : Nat, ∀ n : Nat, ∀ q ∈ broadcastN "f" n, q.items.length ≤ c := by
  refine ⟨rfl, ?_⟩
  rintro ⟨c, hc⟩
  have hrep : ∀ n : Nat, broadcastN "f" n = [⟨0, List.replicate n "f"⟩] := by
    intro n
    induction n with
    | zero => rfl
    | succ m ih =>
      show broadcast (broadcastN "f" m) "f" = _
      rw [ih]
      show [(put_nowait ⟨0, List.replicate m "f"⟩ "f").getD _] = _
      simp [put_nowait, List.replicate_succ']
  have h := hc (c + 1) ⟨0, List.replicate (c + 1) "f"⟩ (by rw [hrep]; exact List.mem_singleton.mpr rfl)
  simp at h

/-- C9 as amended: subscriber queues are unbounded FIFOs, so
`put_nowait` never raises and the frame is appended at the tail;
`_broadcast` enqueues per subscriber independently (subscriber `i`'s
outcome depends only on its own queue), keeping the subscriber count
unchanged. -/
theorem sse_broadcast_amended (subs : List SQueue) (f : String) (q : SQueue)
    (hq : q.maxsize = 0) :
    put_nowait q f = some { q with items := q.items ++ [f] } ∧
      (broadcast subs f).length = subs.length ∧
      (∀ i : Nat, (broadcast subs f)[i]? = (subs[i]?).map (fun qq => (put_nowait qq f).getD qq)) ∧
      subscribe subs = subs ++ [subscriberQueue] := by
  refine ⟨?_, ?_, ?_, rfl⟩
  · simp [put_nowait, hq]
  · simp [broadcast]
  · intro i
    simp [broadcast]

/-- C9 amended witness: one broadcast into a one-subscriber snapshot. -/
theorem sse_broadcast_amended_witness :
    put_nowait (⟨0, ["a"]⟩ : SQueue) "f" = some ⟨0, ["a", "f"]⟩ ∧
      (broadcast [⟨0, ["a"]⟩] "f").length = [(⟨0, ["a"]⟩ : SQueue)].length ∧
      (∀ i : Nat, (broadcast [⟨0, ["a"]⟩] "f")[i]? =
        (([⟨0, ["a"]⟩] : List SQueue)[i]?).map (fun qq => (put_nowait qq "f").getD qq)) ∧
      subscribe [⟨0, ["a"]⟩] = [⟨0, ["a"]⟩] ++ [subscriberQueue] :=
  sse_broadcast_amended [⟨0, ["a"]⟩] "f" ⟨0, ["a"]⟩ rfl

/-! ## C5 — the epoch tick (corrected: it only flips `enabled` flags) -/

theorem flipLinks_length (r : Nat → ℚ) (k : Nat) (l : List Link) :
    (flipLinks r k l).length = l.length := by
  induction l generalizing k with
  | nil => rfl
  | cons hd tl ih => simp [flipLinks, ih]

theorem flipLinks_getElem (r : Nat → ℚ) (k : Nat) (l : List Link) (i : Nat) :
    (flipLinks r k l)[i]? =
      (l[i]?).map (fun ln => if r (k + i) < 1 / 20 then { ln with enabled := !ln.enabled } else ln) := by
  induction l generalizing k i with
  | nil => simp [flipLinks]
  | cons hd tl ih =>
    cases i with
    | zero => simp [flipLinks]
    | succ j =>
      have hk : k + 1 + j = k + (j + 1) := by omega
      simp [flipLinks, ih (k + 1) j, hk]

/-- C5 counterexample: forcing an epoch tick on a state holding a
satellite and an air node changes no node at all — positions do not
advance and no jitter is applied, contradicting the claim that every
epoch tick moves satellites and jitters air/sea nodes. -/
theorem update_epoch_no_motion_cex :
    (update_epoch exSatState (fun _ => 1 / 2)).nodes = exSatState.nodes ∧
      exSatState.nodes.any (fun n => n.kind = "sat") = true ∧
      exSatState.nodes.any (fun n => n.kind = "air") = true :=
  ⟨rfl, rfl, rfl⟩

/-- C5 as amended: an epoch tick (`update_epoch`, run by the timer or
forced by `POST /simulate/set-epoch`) flips the `i`-th link's `enabled`
flag exactly when the `i`-th `random.random()` draw falls below `0.05`,
and changes nothing else: nodes (hence all positions), `adj`,
`edge_index` and the number of links are untouched. -/
theorem update_epoch_flips_only (s : GraphState) (r : Nat → ℚ) :
    (update_epoch s r).nodes = s.nodes ∧
      (update_epoch s r).adj = s.adj ∧
      (update_epoch s r).edge_index = s.edge_index ∧
      (update_epoch s r).links.length = s.links.length ∧
      ∀ i : Nat, (update_epoch s r).links[i]? =
        (s.links[i]?).map (fun l => if r i < 1 / 20 then { l with enabled := !l.enabled } else l) := by
  refine ⟨rfl, rfl, rfl, flipLinks_length r 0 s.links, fun i => ?_⟩
  have h := flipLinks_getElem r 0 s.links i
  simpa using h

/-! ## C4 — graph-builder link admission (corrected: endpoint order) -/

/-- All pairs `(nodes[i], nodes[j])` with `i < j`, in the loop order of
`build_graph`. -/
def orderedPairs : List Node → List (Node × Node)
  | [] => []
  | x :: xs => xs.map (fun y => (x, y)) ++ orderedPairs xs

theorem buildLinksInner_eq (O : RealOps) (cfg : BuildCfg) (u : Node) (l : List Node) :
    buildLinksInner O cfg u l =
      (l.filter (fun v => admitPair O cfg u v)).map (fun v => mkLink O cfg u v) := by
  induction l with
  | nil => rfl
  | cons hd tl ih =>
    by_cases h : admitPair O cfg u hd
    · simp [buildLinksInner, h, List.filter_cons, ih]
    · simp only [Bool.not_eq_true] at h
      simp [buildLinksInner, h, List.filter_cons, ih]

theorem buildLinks_eq (O : RealOps) (cfg : BuildCfg) (nodes : List Node) :
    buildLinks O cfg nodes =
      ((orderedPairs nodes).filter (fun p => admitPair O cfg p.1 p.2)).map
        (fun p => mkLink O cfg p.1 p.2) := by
  induction nodes with
  | nil => rfl
  | cons x xs ih =>
    simp only [buildLinks, orderedPairs, ih, buildLinksInner_eq, List.filter_append,
      List.map_append, List.filter_map, List.map_map]
    congr 1

/-- C4 counterexample: two nearby ground nodes listed with ids `5` then
`3` yield the single canonical link `(u = 5, v = 3)` — `u` is not the
smaller id, refuting the claimed `u = id_min`, `v = id_max`
orientation. -/
theorem build_graph_endpoint_order_cex :
    ((build_graph zeroOps cexBuildCfg [cexNodeHigh, cexNodeLow]).links.map
      (fun l => (l.u, l.v))) = [((5 : Int), (3 : Int))] ∧ ¬ ((5 : Int) < 3) := by
  constructor
  · simp [build_graph, buildLinks, buildLinksInner, admitPair, distance_km, haversine_km,
      radians, zeroOps, elevation_ok, maxRange, maxRangeKey, pairMatches, cexNodeHigh,
      cexNodeLow, cexBuildCfg, EARTH_RADIUS_KM, mkLink, alookup]
  · norm_num

/-- C4 as amended: `build_graph` creates a link for the pair of
list-positions `i < j` exactly when their distance is at most the
kind-pair max range and the LOS test (`elevation_ok`, identically true)
holds; each admitted pair yields exactly one link whose `u` is the id
of the node listed first and `v` the id of the node listed second (in
list order, not sorted by id), with `enabled = true` and attributes a
deterministic function of the two nodes and the link-model parameters
(`mkLink`). -/
theorem build_graph_links_characterized (O : RealOps) (cfg : BuildCfg) (nodes : List Node) :
    (build_graph O cfg nodes).links =
      ((orderedPairs nodes).filter (fun p => admitPair O cfg p.1 p.2)).map
        (fun p => mkLink O cfg p.1 p.2) ∧
      ∀ l ∈ (build_graph O cfg nodes).links, l.enabled = true := by
  refine ⟨buildLinks_eq O cfg nodes, fun l hl => ?_⟩
  have hl' : l ∈ buildLinks O cfg nodes := hl
  rw [buildLinks_eq] at hl'
  obtain ⟨p, _, rfl⟩ := List.mem_map.mp hl'
  rfl

/-! ## C8 — packet-progress event ordering (corrected: the TCP-relay
thread's extra `pending` frame is unordered relative to the simulator) -/

theorem simulateAux_getElem (sid : String) (msg : Option String) (dst : Int)
    (ei : List ((Int × Int) × Nat)) (links : List Link) :
    ∀ (l : List Int) (prev : Int) (cum : ℚ) (k : Nat) (e : Evt),
      (simulateAux sid msg dst ei links prev cum l)[k]? = some e →
      ∃ j : Nat, l[j]? = some e.nodeId ∧
        ((k = 2 * j ∧ e.status = "pending") ∨ (k = 2 * j + 1 ∧ e.status = "success")) := by
  intro l
  induction l with
  | nil => intro _ _ k e h; simp [simulateAux] at h
  | cons v rest ih =>
    intro prev cum k e h
    match k with
    | 0 =>
      simp only [simulateAux, List.getElem?_cons_zero, Option.some.injEq] at h
      exact ⟨0, by simp [← h]⟩
    | 1 =>
      simp only [simulateAux, List.getElem?_cons_succ, List.getElem?_cons_zero,
        Option.some.injEq] at h
      exact ⟨0, by simp [← h]⟩
    | k + 2 =>
      simp only [simulateAux, List.getElem?_cons_succ] at h
      obtain ⟨j, hj, hc⟩ := ih _ _ k e h
      refine ⟨j + 1, by simpa using hj, ?_⟩
      rcases hc with ⟨hk, hs⟩ | ⟨hk, hs⟩
      · exact Or.inl ⟨by omega, hs⟩
      · exact Or.inr ⟨by omega, hs⟩

theorem simulateEvents_getElem (sid : String) (msg : Option String) (dst : Int)
    (ei : List ((Int × Int) × Nat)) (links : List Link) (path : List Int)
    (k : Nat) (e : Evt)
    (h : (simulateEvents sid msg dst ei links path)[k]? = some e) :
    ∃ j : Nat, path[j]? = some e.nodeId ∧
      ((k = 2 * j ∧ e.status = "pending") ∨ (k = 2 * j + 1 ∧ e.status = "success")) := by
  match path with
  | [] => simp [simulateEvents] at h
  | v0 :: rest =>
    match k with
    | 0 =>
      simp only [simulateEvents, List.getElem?_cons_zero, Option.some.injEq] at h
      exact ⟨0, by simp [← h]⟩
    | 1 =>
      simp only [simulateEvents, List.getElem?_cons_succ, List.getElem?_cons_zero,
        Option.some.injEq] at h
      exact ⟨0, by simp [← h]⟩
    | k + 2 =>
      simp only [simulateEvents, List.getElem?_cons_succ] at h
      obtain ⟨j, hj, hc⟩ := simulateAux_getElem sid msg dst ei links rest v0 0 k e h
      refine ⟨j + 1, by simpa using hj, ?_⟩
      rcases hc with ⟨hk, hs⟩ | ⟨hk, hs⟩
      · exact Or.inl ⟨by omega, hs⟩
      · exact Or.inr ⟨by omega, hs⟩

theorem nodup_getElem?_unique {l : List Int} (h : l.Nodup) {i j : Nat} {x : Int}
    (hi : l[i]? = some x) (hj : l[j]? = some x) : i = j := by
  have hi' : i < l.length := by
    by_contra hc
    rw [List.getElem?_eq_none (by omega)] at hi
    exact Option.noConfusion hi
  have hj' : j < l.length := by
    by_contra hc
    rw [List.getElem?_eq_none (by omega)] at hj
    exact Option.noConfusion hj
  rw [List.getElem?_eq_getElem hi'] at hi
  rw [List.getElem?_eq_getElem hj'] at hj
  have : l[i] = l[j] := by
    rw [Option.some.injEq] at hi hj
    rw [hi, hj]
  exact h.getElem_inj_iff.mp this

/-- C8 as amended: the frames emitted by the `_simulate` thread alone
are hop-ordered (for a duplicate-free path): `pending@hop_i` precedes
`success@hop_i`, which precedes every frame of `hop_{i+1}`.  The
combined session stream, however, also contains the `_tcp_relay`
thread's extra first-hop `pending` frame, which is unordered relative
to the simulator's frames (see the counterexample). -/
theorem simulate_events_hop_ordered (sid : String) (msg : Option String) (dst : Int)
    (ei : List ((Int × Int) × Nat)) (links : List Link) (path : List Int)
    (hnd : path.Nodup) :
    HopOrdered (simulateEvents sid msg dst ei links path) path := by
  constructor
  · intro a b i ea eb ha hb hpa hpb hia hib
    obtain ⟨ja, hja, hca⟩ := simulateEvents_getElem sid msg dst ei links path a ea ha
    obtain ⟨jb, hjb, hcb⟩ := simulateEvents_getElem sid msg dst ei links path b eb hb
    have hja' : ja = i := nodup_getElem?_unique hnd hja hia
    have hjb' : jb = i := nodup_getElem?_unique hnd hjb hib
    rcases hca with ⟨hk, _⟩ | ⟨_, hs⟩
    · rcases hcb with ⟨_, hs'⟩ | ⟨hk', _⟩
      · rw [hpb] at hs'; exact absurd hs' (by simp)
      · omega
    · rw [hpa] at hs; exact absurd hs (by simp)
  · intro a b i ea eb ha hb hpa hia hib
    obtain ⟨ja, hja, hca⟩ := simulateEvents_getElem sid msg dst ei links path a ea ha
    obtain ⟨jb, hjb, hcb⟩ := simulateEvents_getElem sid msg dst ei links path b eb hb
    have hja' : ja = i := nodup_getElem?_unique hnd hja hia
    have hjb' : jb = i + 1 := nodup_getElem?_unique hnd hjb hib
    rcases hca with ⟨_, hs⟩ | ⟨hk, _⟩
    · rw [hpa] at hs; exact absurd hs (by simp)
    · rcases hcb with ⟨hk', _⟩ | ⟨hk', _⟩ <;> omega

/-- C8 witness: the simulator trace of a two-hop session on the
fixture graph. -/
theorem simulate_events_hop_ordered_witness :
    HopOrdered (simulateEvents "sid" none 1 exState.edge_index exState.links [0, 1]) [0, 1] :=
  simulate_events_hop_ordered "sid" none 1 exState.edge_index exState.links [0, 1] (by decide)

/-- Any serialisation of two threads' frames where the first thread
finishes before the second starts. -/
theorem interleaving_append (xs ys : List Evt) : Interleaving xs ys (xs ++ ys) := by
  induction xs with
  | nil =>
    induction ys with
    | nil => exact .nil
    | cons y ys ihy => exact .right ihy
  | cons x xs ihx => exact .left ihx

def cexSimTrace : List Evt := simulateEvents "sid" none 1 exState.edge_index exState.links [0, 1]

def cexRelayTrace : List Evt := tcpRelayEvents "sid" none [0, 1] true

/-- C8 counterexample: a legal interleaving of the two emitting threads
of `post_send_packet` — the simulator's four frames followed by the TCP
relay's extra first-hop `pending` frame — is not hop-ordered: the
relay's `pending@hop_0` lands after `success@hop_0`. -/
theorem send_packet_relay_unordered_cex :
    Interleaving cexSimTrace cexRelayTrace (cexSimTrace ++ cexRelayTrace) ∧
      ¬ HopOrdered (cexSimTrace ++ cexRelayTrace) [0, 1] := by
  refine ⟨interleaving_append _ _, ?_⟩
  intro h
  have h4 : (cexSimTrace ++ cexRelayTrace)[4]? = some ⟨"pending", "sid", 0, 0, none⟩ := rfl
  have h1 : (cexSimTrace ++ cexRelayTrace)[1]? = some ⟨"success", "sid", 0, 0, none⟩ := rfl
  have hlt := h.1 4 1 0 _ _ h4 h1 rfl rfl rfl rfl
  omega

/-! ## C3 — `/route` metrics: bottleneck throughput, summed latency -/

/-- Whatever branch produced a 200 response, its `latency_ms` and
`throughput_mbps` fields are the two metric helpers applied to the
returned path and the current nodes. -/
theorem post_route_ok_fields (O : RealOps) (cfg : AcoParams) (s : GraphState)
    (r : Nat → ℚ) (src dst : Int) (wopt : Option (ℚ × ℚ × ℚ × ℚ))
    {p : List Int} {c lat thr : ℚ}
    (h : post_route O cfg s r src dst wopt = RouteResp.ok p c lat thr) :
    lat = path_latency_ms_for_state O p s.nodes ∧
      thr = path_throughput_mbps_for_state O p s.nodes := by
  unfold post_route at h
  cases hs : ACO_solve s cfg wopt r src dst with
  | some pc =>
    rw [hs] at h
    simp only [RouteResp.ok.injEq] at h
    exact ⟨h.2.2.1.symm.trans (by rw [h.1]), h.2.2.2.symm.trans (by rw [h.1])⟩
  | none =>
    rw [hs] at h
    dsimp only at h
    by_cases hb : bfs_path s src dst = []
    · rw [if_pos hb] at h
      exact absurd h (by simp)
    · rw [if_neg hb] at h
      simp only [RouteResp.ok.injEq] at h
      exact ⟨h.2.2.1.symm.trans (by rw [h.1]), h.2.2.2.symm.trans (by rw [h.1])⟩

theorem path_latency_foldl_eq_sum (O : RealOps) (nodes : List Node) :
    ∀ (l : List (Int × Int)) (init : ℚ),
      (∀ uv ∈ l, (findNode nodes uv.1).isSome ∧ (findNode nodes uv.2).isSome) →
      l.foldl
        (fun total uv =>
          match findNode nodes uv.1, findNode nodes uv.2 with
          | some a, some b => total + hopLatency O a b
          | _, _ => total) init =
      init + (l.map (fun uv => hopLatency O ((findNode nodes uv.1).getD defaultNode)
        ((findNode nodes uv.2).getD defaultNode))).sum := by
  intro l
  induction l with
  | nil => intro init _; simp
  | cons uv rest ih =>
    intro init hfind
    obtain ⟨ha, hb⟩ := hfind uv (List.mem_cons_self uv rest)
    obtain ⟨a, ha'⟩ := Option.isSome_iff_exists.mp ha
    obtain ⟨b, hb'⟩ := Option.isSome_iff_exists.mp hb
    have hrest := fun x hx => hfind x (List.mem_cons_of_mem uv hx)
    simp only [List.foldl_cons, List.map_cons, List.sum_cons, ha', hb']
    rw [ih (init + hopLatency O a b) hrest]
    simp only [Option.getD_some]
    ring

theorem path_throughput_filterMap_eq_map (O : RealOps) (nodes : List Node) :
    ∀ l : List (Int × Int),
      (∀ uv ∈ l, (findNode nodes uv.1).isSome ∧ (findNode nodes uv.2).isSome) →
      l.filterMap
        (fun uv =>
          match findNode nodes uv.1, findNode nodes uv.2 with
          | some a, some b => some (hopCapacityBps O a b)
          | _, _ => none) =
      l.map (fun uv => hopCapacityBps O ((findNode nodes uv.1).getD defaultNode)
        ((findNode nodes uv.2).getD defaultNode)) := by
  intro l
  induction l with
  | nil => intro _; rfl
  | cons uv rest ih =>
    intro hfind
    obtain ⟨ha, hb⟩ := hfind uv (List.mem_cons_self uv rest)
    obtain ⟨a, ha'⟩ := Option.isSome_iff_exists.mp ha
    obtain ⟨b, hb'⟩ := Option.isSome_iff_exists.mp hb
    have hrest := fun x hx => hfind x (List.mem_cons_of_mem uv hx)
    simp only [List.filterMap_cons, List.map_cons, ha', hb', Option.getD_some,
      ih hrest]

theorem pymin_foldl_div (c : ℚ) (hc : 0 ≤ c) :
    ∀ (xs : List ℚ) (a : ℚ), (xs.map (fun x => x / c)).foldl min (a / c) = xs.foldl min a / c := by
  intro xs
  induction xs with
  | nil => intro a; rfl
  | cons x rest ih =>
    intro a
    simp only [List.map_cons, List.foldl_cons]
    rw [min_div_div_right hc a x, ih (min a x)]

theorem pymin_map_div (c : ℚ) (hc : 0 ≤ c) (l : List ℚ) (hne : l ≠ []) :
    pymin (l.map (fun x => x / c)) = pymin l / c := by
  match l with
  | [] => exact absurd rfl hne
  | x :: xs =>
    simp only [List.map_cons, pymin]
    exact pymin_foldl_div c hc xs x

theorem pathPairs_ne_nil {p : List Int} (hlen : 2 ≤ p.length) : pathPairs p ≠ [] := by
  match p with
  | [] => simp at hlen
  | [_] => simp at hlen
  | a :: b :: t => simp [pathPairs]

/-- C3: in every 200 response of `POST /route` whose path has at least
two nodes (and whose node ids all resolve, which holds for every path
the handler can return), `throughput_mbps` is the minimum over hops of
the per-hop capacity and `latency_ms` the sum over hops of the per-hop
latency, both recomputed from the current node positions through the
link-budget helpers (`hopCapacityBps`, `hopLatency`) rather than read
from the stored link attributes. -/
theorem route_metrics_min_sum (O : RealOps) (cfg : AcoParams) (s : GraphState)
    (r : Nat → ℚ) (src dst : Int) (wopt : Option (ℚ × ℚ × ℚ × ℚ))
    (p : List Int) (c lat thr : ℚ)
    (hres : post_route O cfg s r src dst wopt = RouteResp.ok p c lat thr)
    (hlen : 2 ≤ p.length)
    (hfind : ∀ uv ∈ pathPairs p, (findNode s.nodes uv.1).isSome ∧ (findNode s.nodes uv.2).isSome) :
    lat = ((pathPairs p).map (fun uv => hopLatency O ((findNode s.nodes uv.1).getD defaultNode)
        ((findNode s.nodes uv.2).getD defaultNode))).sum ∧
      thr = pymin ((pathPairs p).map
        (fun uv => hopCapacityBps O ((findNode s.nodes uv.1).getD defaultNode)
          ((findNode s.nodes uv.2).getD defaultNode) / 1000000)) := by
  obtain ⟨hlat, hthr⟩ := post_route_ok_fields O cfg s r src dst wopt hres
  constructor
  · rw [hlat]
    unfold path_latency_ms_for_state
    rw [if_neg (by omega)]
    rw [path_latency_foldl_eq_sum O s.nodes (pathPairs p) 0 hfind]
    ring
  · rw [hthr]
    unfold path_throughput_mbps_for_state
    rw [if_neg (by omega)]
    rw [path_throughput_filterMap_eq_map O s.nodes (pathPairs p) hfind]
    have hne : (pathPairs p).map (fun uv => hopCapacityBps O ((findNode s.nodes uv.1).getD defaultNode)
        ((findNode s.nodes uv.2).getD defaultNode)) ≠ [] := by
      simp [pathPairs_ne_nil hlen]
    rw [if_neg hne]
    rw [← pymin_map_div 1000000 (by norm_num) _ hne, List.map_map]
    rfl

/-- C3 witness: a concrete 200 response on the fixture graph (zero
solver iterations, so the BFS fallback supplies the path `[0, 1]`). -/
theorem route_metrics_min_sum_witness :
    path_latency_ms_for_state zeroOps [0, 1] exState.nodes =
      ((pathPairs [0, 1]).map (fun uv => hopLatency zeroOps
        ((findNode exState.nodes uv.1).getD defaultNode)
        ((findNode exState.nodes uv.2).getD defaultNode))).sum ∧
      path_throughput_mbps_for_state zeroOps [0, 1] exState.nodes =
        pymin ((pathPairs [0, 1]).map (fun uv => hopCapacityBps zeroOps
          ((findNode exState.nodes uv.1).getD defaultNode)
          ((findNode exState.nodes uv.2).getD defaultNode) / 1000000)) :=
  route_metrics_min_sum zeroOps exCfg0 exState exR 0 1 none [0, 1]
    (fallbackCost (compute_edge_costs exState ((none : Option (ℚ × ℚ × ℚ × ℚ)).getD exCfg0.weights)) [0, 1])
    (path_latency_ms_for_state zeroOps [0, 1] exState.nodes)
    (path_throughput_mbps_for_state zeroOps [0, 1] exState.nodes)
    rfl (by decide) (by decide)

/-! ## C7 — consistency of the derived views (`edge_index`, `adj`) -/

theorem alookup_isSome_of_mem {α β : Type} [DecidableEq α]
    {m : List (α × β)} {k : α} {v : β} (h : (k, v) ∈ m) : (alookup m k).isSome := by
  induction m with
  | nil => simp at h
  | cons hd tl ih =>
    rcases List.mem_cons.mp h with h1 | h1
    · subst h1; simp [alookup]
    · by_cases h2 : hd.1 = k
      · simp [alookup, h2]
      · simp only [alookup, h2, if_false]
        exact ih h1

theorem aset_entry {α β : Type} [DecidableEq α]
    {m : List (α × β)} {k k' : α} {v v' : β} (h : (k', v') ∈ aset m k v) :
    (k', v') ∈ m ∨ (k' = k ∧ v' = v) := by
  induction m with
  | nil =>
    rw [aset] at h
    rw [List.mem_singleton, Prod.ext_iff] at h
    exact Or.inr ⟨h.1, h.2⟩
  | cons hd tl ih =>
    by_cases h1 : hd.1 = k
    · rw [aset, if_pos h1] at h
      rcases List.mem_cons.mp h with h2 | h2
      · rw [Prod.ext_iff] at h2
        exact Or.inr ⟨h2.1.trans h1, h2.2⟩
      · exact Or.inl (List.mem_cons_of_mem _ h2)
    · rw [aset, if_neg h1] at h
      rcases List.mem_cons.mp h with h2 | h2
      · exact Or.inl (List.mem_cons.mpr (Or.inl h2))
      · rcases ih h2 with h3 | h3
        · exact Or.inl (List.mem_cons_of_mem _ h3)
        · exact Or.inr h3

/-- `adj.get(u, [])` on a raw association list. -/
def adjGetRaw (m : List (Int × List Int)) (u : Int) : List Int :=
  (alookup m u).getD []

theorem adjAppend_lookup (m : List (Int × List Int)) (key : Int) (x : Int) (k' : Int) :
    alookup (adjAppend m key x) k' =
      if k' = key then (alookup m key).map (fun l => l ++ [x]) else alookup m k' := by
  induction m with
  | nil => by_cases h : k' = key <;> simp [adjAppend, alookup, h]
  | cons hd tl ih =>
    obtain ⟨k0, l0⟩ := hd
    by_cases h1 : k0 = key
    · subst h1
      by_cases h2 : k' = k0
      · subst h2; simp [adjAppend, alookup]
      · have h3 : ¬ (k0 = k') := fun hc => h2 hc.symm
        simp [adjAppend, alookup, h2, h3]
    · by_cases h2 : k' = k0
      · subst h2
        have h3 : ¬ (k' = key) := fun hc => h1 hc
        simp [adjAppend, h1, alookup, h3]
      · have h3 : ¬ (k0 = k') := fun hc => h2 hc.symm
        simp only [adjAppend, h1, if_false, alookup, h3, ih]

theorem adjAppend_isSome (m : List (Int × List Int)) (key x u : Int)
    (h : (alookup m u).isSome) : (alookup (adjAppend m key x) u).isSome := by
  rw [adjAppend_lookup]
  by_cases h1 : u = key
  · subst h1; simpa using h
  · simpa [h1] using h

theorem adjAppend_mem_mono (m : List (Int × List Int)) (key x u y : Int)
    (h : y ∈ adjGetRaw m u) : y ∈ adjGetRaw (adjAppend m key x) u := by
  unfold adjGetRaw at h ⊢
  rw [adjAppend_lookup]
  by_cases h1 : u = key
  · subst h1
    cases hm : alookup m u with
    | none => rw [hm] at h; simp at h
    | some l => rw [hm] at h; simp [List.mem_append]; exact Or.inl h
  · simpa [h1] using h

theorem adjAppend_mem_self (m : List (Int × List Int)) (key x : Int)
    (h : (alookup m key).isSome) : x ∈ adjGetRaw (adjAppend m key x) key := by
  unfold adjGetRaw
  rw [adjAppend_lookup, if_pos rfl]
  obtain ⟨l, hl⟩ := Option.isSome_iff_exists.mp h
  simp [hl]

theorem adjAppend_entry {m : List (Int × List Int)} {key x : Int} {k' : Int}
    {ns' : List Int} (h : (k', ns') ∈ adjAppend m key x) :
    ∃ ns0, (k', ns0) ∈ m ∧ (ns' = ns0 ∨ (k' = key ∧ ns' = ns0 ++ [x])) := by
  induction m with
  | nil => simp [adjAppend] at h
  | cons hd tl ih =>
    obtain ⟨k0, l0⟩ := hd
    by_cases h1 : k0 = key
    · rw [adjAppend, if_pos h1] at h
      rcases List.mem_cons.mp h with h2 | h2
      · simp only [Prod.ext_iff] at h2
        obtain ⟨hk, hn⟩ := h2
        refine ⟨l0, ?_, Or.inr ⟨hk.trans h1, hn⟩⟩
        rw [hk]
        exact List.mem_cons_self _ _
      · exact ⟨ns', List.mem_cons_of_mem _ h2, Or.inl rfl⟩
    · rw [adjAppend, if_neg h1] at h
      rcases List.mem_cons.mp h with h2 | h2
      · simp only [Prod.ext_iff] at h2
        obtain ⟨hk, hn⟩ := h2
        refine ⟨l0, ?_, Or.inl hn⟩
        rw [hk]
        exact List.mem_cons_self _ _
      · obtain ⟨ns0, hns0, hcase⟩ := ih h2
        exact ⟨ns0, List.mem_cons_of_mem _ hns0, hcase⟩

/-- The propositional shape of the `edge_index` half of claim C7. -/
def EIok (links : List Link) (ei : List ((Int × Int) × Nat)) : Prop :=
  ∀ u v : Int, ∀ i : Nat, alookup ei (u, v) = some i →
    alookup ei (v, u) = some i ∧ ∃ l, links[i]? = some l ∧ linkMatches l u v = true

theorem registerLink_EIok {links : List Link} {adj : List (Int × List Int)}
    {ei : List ((Int × Int) × Nat)} {idx : Nat} {e : Link}
    (hok : EIok links ei) (he : links[idx]? = some e) :
    EIok links (registerLink (adj, ei) idx e).2 := by
  intro u v i h
  have hei : (registerLink (adj, ei) idx e).2 =
      aset (aset ei (e.u, e.v) idx) (e.v, e.u) idx := rfl
  rw [hei] at h
  by_cases h1 : (u, v) = ((e.v, e.u) : Int × Int)
  · rw [h1, alookup_aset_self] at h
    have hidx : idx = i := by injection h
    subst hidx
    obtain ⟨hu, hv⟩ : u = e.v ∧ v = e.u := by
      rw [Prod.ext_iff] at h1; exact h1
    subst hu; subst hv
    constructor
    · rw [hei]
      by_cases h2 : ((e.u, e.v) : Int × Int) = (e.v, e.u)
      · rw [h2, alookup_aset_self]
      · rw [alookup_aset_ne _ _ _ _ (fun hc => h2 hc.symm), alookup_aset_self]
    · exact ⟨e, he, by simp [linkMatches]⟩
  · rw [alookup_aset_ne _ _ _ _ (fun hc => h1 hc.symm)] at h
    by_cases h2 : (u, v) = ((e.u, e.v) : Int × Int)
    · rw [h2, alookup_aset_self] at h
      have hidx : idx = i := by injection h
      subst hidx
      obtain ⟨hu, hv⟩ : u = e.u ∧ v = e.v := by
        rw [Prod.ext_iff] at h2; exact h2
      subst hu; subst hv
      refine ⟨?_, ⟨e, he, by simp [linkMatches]⟩⟩
      rw [hei, alookup_aset_self]
    · rw [alookup_aset_ne _ _ _ _ (fun hc => h2 hc.symm)] at h
      obtain ⟨hrev, hl⟩ := hok u v i h
      refine ⟨?_, hl⟩
      rw [hei]
      have h3 : ((e.v, e.u) : Int × Int) ≠ (v, u) := fun hc => by
        apply h2
        rw [Prod.ext_iff] at hc ⊢
        exact ⟨hc.2.symm, hc.1.symm⟩
      have h4 : ((e.u, e.v) : Int × Int) ≠ (v, u) := fun hc => by
        apply h1
        rw [Prod.ext_iff] at hc ⊢
        exact ⟨hc.2.symm, hc.1.symm⟩
      rw [alookup_aset_ne _ _ _ _ h3, alookup_aset_ne _ _ _ _ h4]
      exact hrev

theorem registerAll_EIok {links : List Link} :
    ∀ (todo : List Link) (idx : Nat) (st : List (Int × List Int) × List ((Int × Int) × Nat)),
      (∀ (j : Nat) (e : Link), todo[j]? = some e → links[idx + j]? = some e) →
      EIok links st.2 → EIok links (registerAll st idx todo).2 := by
  intro todo
  induction todo with
  | nil => intro idx st _ hok; exact hok
  | cons e rest ih =>
    intro idx st htodo hok
    show EIok links (registerAll (registerLink st idx e) (idx + 1) rest).2
    have he : links[idx]? = some e := by
      have := htodo 0 e (by simp)
      simpa using this
    obtain ⟨adj, ei⟩ := st
    refine ih (idx + 1) (registerLink (adj, ei) idx e) (fun j e' hj => ?_)
      (registerLink_EIok hok he)
    have := htodo (j + 1) e' (by simpa using hj)
    have harith : idx + (j + 1) = idx + 1 + j := by omega
    rwa [harith] at this

theorem registerAll_adj (todo : List Link) :
    ∀ (idx : Nat) (adj : List (Int × List Int)) (ei : List ((Int × Int) × Nat)),
      (∀ u x, x ∈ adjGetRaw adj u → x ∈ adjGetRaw (registerAll (adj, ei) idx todo).1 u) ∧
      (∀ u, (alookup adj u).isSome → (alookup (registerAll (adj, ei) idx todo).1 u).isSome) ∧
      (∀ e ∈ todo, (alookup adj e.u).isSome → (alookup adj e.v).isSome →
        e.v ∈ adjGetRaw (registerAll (adj, ei) idx todo).1 e.u ∧
        e.u ∈ adjGetRaw (registerAll (adj, ei) idx todo).1 e.v) := by
  induction todo with
  | nil =>
    intro idx adj ei
    exact ⟨fun u x h => h, fun u h => h, fun e he => absurd he (List.not_mem_nil e)⟩
  | cons e rest ih =>
    intro idx adj ei
    have hshow : registerAll (adj, ei) idx (e :: rest) =
        registerAll (registerLink (adj, ei) idx e) (idx + 1) rest := rfl
    have hA2 : (registerLink (adj, ei) idx e).1 =
        adjAppend (adjAppend adj e.u e.v) e.v e.u := rfl
    obtain ⟨ihmono, ihsome, ihtodo⟩ :=
      ih (idx + 1) (registerLink (adj, ei) idx e).1 (registerLink (adj, ei) idx e).2
    have hpair : ((registerLink (adj, ei) idx e).1, (registerLink (adj, ei) idx e).2) =
        registerLink (adj, ei) idx e := rfl
    rw [hpair] at ihmono ihsome ihtodo
    have hmono2 : ∀ u x, x ∈ adjGetRaw adj u →
        x ∈ adjGetRaw (registerLink (adj, ei) idx e).1 u := by
      intro u x h
      rw [hA2]
      exact adjAppend_mem_mono _ _ _ _ _ (adjAppend_mem_mono _ _ _ _ _ h)
    have hsome2 : ∀ u, (alookup adj u).isSome →
        (alookup (registerLink (adj, ei) idx e).1 u).isSome := by
      intro u h
      rw [hA2]
      exact adjAppend_isSome _ _ _ _ (adjAppend_isSome _ _ _ _ h)
    refine ⟨?_, ?_, ?_⟩
    · intro u x h
      rw [hshow]
      exact ihmono u x (hmono2 u x h)
    · intro u h
      rw [hshow]
      exact ihsome u (hsome2 u h)
    · intro f hf hsu hsv
      rcases List.mem_cons.mp hf with hfe | hfr
      · subst hfe
        rw [hshow]
        constructor
        · refine ihmono _ _ ?_
          rw [hA2]
          exact adjAppend_mem_mono _ _ _ _ _ (adjAppend_mem_self adj f.u f.v hsu)
        · refine ihmono _ _ ?_
          rw [hA2]
          exact adjAppend_mem_self _ _ _ (adjAppend_isSome _ _ _ _ hsv)
      · rw [hshow]
        exact ihtodo f hfr (hsome2 _ hsu) (hsome2 _ hsv)

theorem adjInit_fold_isSome :
    ∀ (nodes : List Node) (m : List (Int × List Int)) (i : Int),
      ((alookup m i).isSome ∨ ∃ n ∈ nodes, n.id = i) →
      (alookup (nodes.foldl (fun m n => aset m n.id []) m) i).isSome := by
  intro nodes
  induction nodes with
  | nil =>
    intro m i h
    rcases h with h | ⟨n, hn, _⟩
    · exact h
    · exact absurd hn (List.not_mem_nil n)
  | cons n rest ih =>
    intro m i h
    show (alookup (rest.foldl (fun m n => aset m n.id []) (aset m n.id [])) i).isSome
    refine ih (aset m n.id []) i ?_
    rcases h with h | ⟨nn, hnn, hid⟩
    · exact Or.inl ((alookup_aset_isSome m n.id i []).mpr (Or.inr h))
    · rcases List.mem_cons.mp hnn with h2 | h2
      · subst h2
        exact Or.inl ((alookup_aset_isSome m nn.id i []).mpr (Or.inl hid.symm))
      · exact Or.inr ⟨nn, h2, hid⟩

theorem adjInit_isSome (nodes : List Node) (n : Node) (hn : n ∈ nodes) :
    (alookup (adjInit nodes) n.id).isSome :=
  adjInit_fold_isSome nodes [] n.id (Or.inr ⟨n, hn, rfl⟩)

theorem adjInit_fold_entries :
    ∀ (nodes : List Node) (m : List (Int × List Int)),
      (∀ e ∈ m, e.2 = ([] : List Int)) →
      ∀ e ∈ nodes.foldl (fun m n => aset m n.id []) m, e.2 = ([] : List Int) := by
  intro nodes
  induction nodes with
  | nil => intro m h e he; exact h e he
  | cons n rest ih =>
    intro m h e he
    refine ih (aset m n.id []) ?_ e he
    intro f hf
    obtain ⟨fk, fv⟩ := f
    rcases aset_entry hf with h1 | h1
    · exact h (fk, fv) h1
    · exact h1.2

theorem registerAll_entries (links : List Link) :
    ∀ (todo : List Link) (idx : Nat) (adj : List (Int × List Int))
      (ei : List ((Int × Int) × Nat)),
      (∀ e ∈ todo, e ∈ links) →
      (∀ (k : Int) (ns : List Int), (k, ns) ∈ adj →
        ∀ v ∈ ns, ∃ l, l ∈ links ∧ linkMatches l k v = true) →
      ∀ (k : Int) (ns : List Int), (k, ns) ∈ (registerAll (adj, ei) idx todo).1 →
        ∀ v ∈ ns, ∃ l, l ∈ links ∧ linkMatches l k v = true := by
  intro todo
  induction todo with
  | nil => intro idx adj ei _ hadj k ns hm v hv; exact hadj k ns hm v hv
  | cons e rest ih =>
    intro idx adj ei htodo hadj k ns hm v hv
    have hshow : registerAll (adj, ei) idx (e :: rest) =
        registerAll (registerLink (adj, ei) idx e) (idx + 1) rest := rfl
    rw [hshow] at hm
    have hpair : registerLink (adj, ei) idx e =
        ((registerLink (adj, ei) idx e).1, (registerLink (adj, ei) idx e).2) := rfl
    rw [hpair] at hm
    refine ih (idx + 1) (registerLink (adj, ei) idx e).1 (registerLink (adj, ei) idx e).2
      (fun f hf => htodo f (List.mem_cons_of_mem e hf)) ?_ k ns hm v hv
    have he : e ∈ links := htodo e (List.mem_cons_self e rest)
    intro k' ns' hm' v' hv'
    have hA2 : (registerLink (adj, ei) idx e).1 =
        adjAppend (adjAppend adj e.u e.v) e.v e.u := rfl
    rw [hA2] at hm'
    obtain ⟨ns1, hns1, hc1⟩ := adjAppend_entry hm'
    obtain ⟨ns0, hns0, hc0⟩ := adjAppend_entry hns1
    rcases hc1 with hc1 | ⟨hk1, hc1⟩
    · rcases hc0 with hc0 | ⟨hk0, hc0⟩
      · exact hadj k' ns' (hc1 ▸ hc0 ▸ hns0) v' hv'
      · rw [hc1, hc0] at hv'
        rcases List.mem_append.mp hv' with h2 | h2
        · exact hadj k' ns0 hns0 v' h2
        · rw [List.mem_singleton.mp h2, hk0]
          exact ⟨e, he, by simp [linkMatches]⟩
    · rcases hc0 with hc0 | ⟨hk0, hc0⟩
      · rw [hc1, hc0] at hv'
        rcases List.mem_append.mp hv' with h2 | h2
        · exact hadj k' ns0 hns0 v' h2
        · rw [List.mem_singleton.mp h2, hk1]
          exact ⟨e, he, by simp [linkMatches]⟩
      · rw [hc1, hc0] at hv'
        rcases List.mem_append.mp hv' with h2 | h2
        · rcases List.mem_append.mp h2 with h3 | h3
          · exact hadj k' ns0 hns0 v' h3
          · rw [List.mem_singleton.mp h3, hk0]
            exact ⟨e, he, by simp [linkMatches]⟩
        · rw [List.mem_singleton.mp h2, hk1]
          exact ⟨e, he, by simp [linkMatches]⟩

theorem orderedPairs_mem {nodes : List Node} {p : Node × Node}
    (h : p ∈ orderedPairs nodes) : p.1 ∈ nodes ∧ p.2 ∈ nodes := by
  induction nodes with
  | nil => simp [orderedPairs] at h
  | cons x xs ih =>
    rw [orderedPairs, List.mem_append] at h
    rcases h with h | h
    · obtain ⟨y, hy, hp⟩ := List.mem_map.mp h
      rw [← hp]
      exact ⟨List.mem_cons_self x xs, List.mem_cons_of_mem x hy⟩
    · obtain ⟨h1, h2⟩ := ih h
      exact ⟨List.mem_cons_of_mem x h1, List.mem_cons_of_mem x h2⟩

theorem buildLinks_endpoints {O : RealOps} {cfg : BuildCfg} {nodes : List Node}
    {l : Link} (h : l ∈ buildLinks O cfg nodes) :
    (∃ a ∈ nodes, l.u = a.id) ∧ ∃ b ∈ nodes, l.v = b.id := by
  rw [buildLinks_eq] at h
  obtain ⟨p, hp, hl⟩ := List.mem_map.mp h
  have hm := orderedPairs_mem (List.mem_filter.mp hp).1
  rw [← hl]
  exact ⟨⟨p.1, hm.1, rfl⟩, ⟨p.2, hm.2, rfl⟩⟩

/-- C7, part 1 (as a standalone lemma): the builder's output is
consistent. -/
theorem build_graph_consistent (O : RealOps) (cfg : BuildCfg) (nodes : List Node) :
    graphConsistent (build_graph O cfg nodes) = true := by
  have hs : build_graph O cfg nodes =
      { nodes := nodes, links := buildLinks O cfg nodes,
        adj := (registerAll (adjInit nodes, []) 0 (buildLinks O cfg nodes)).1,
        edge_index := (registerAll (adjInit nodes, []) 0 (buildLinks O cfg nodes)).2 } := rfl
  set links := buildLinks O cfg nodes
  have heiok : EIok links (registerAll (adjInit nodes, [] ) 0 links).2 := by
    refine registerAll_EIok links 0 (adjInit nodes, []) (fun j e hj => by simpa using hj) ?_
    intro u v i h
    simp [alookup] at h
  obtain ⟨_, _, hadjtodo⟩ := registerAll_adj links 0 (adjInit nodes) []
  have hentries := registerAll_entries links links 0 (adjInit nodes) []
    (fun e he => he)
    (fun k ns hm v hv => by
      have := adjInit_fold_entries nodes [] (by intro e he; simp at he) (k, ns) hm
      simp at this
      rw [this] at hv
      simp at hv)
  clear hs
  have hE : (build_graph O cfg nodes).edge_index =
      (registerAll (adjInit nodes, []) 0 links).2 := rfl
  have hA : (build_graph O cfg nodes).adj =
      (registerAll (adjInit nodes, []) 0 links).1 := rfl
  have hL : (build_graph O cfg nodes).links = links := rfl
  unfold graphConsistent
  simp only [adjGet, hE, hA, hL, Bool.and_eq_true, List.all_eq_true, List.any_eq_true]
  refine ⟨⟨?_, ?_⟩, ?_⟩
  · intro e he
    have hsome := alookup_isSome_of_mem he
    obtain ⟨i, hi⟩ := Option.isSome_iff_exists.mp hsome
    obtain ⟨hrev, l, hl, hmatch⟩ := heiok e.1.1 e.1.2 i hi
    simp only [hi, hrev, hl, hmatch]
    simp
  · intro l hl
    obtain ⟨⟨a, ha, hua⟩, ⟨b, hb, hvb⟩⟩ := buildLinks_endpoints hl
    have hsu : (alookup (adjInit nodes) l.u).isSome := hua ▸ adjInit_isSome nodes a ha
    have hsv : (alookup (adjInit nodes) l.v).isSome := hvb ▸ adjInit_isSome nodes b hb
    obtain ⟨h1, h2⟩ := hadjtodo l hl hsu hsv
    constructor
    · show List.contains (adjGetRaw (registerAll (adjInit nodes, [] ) 0 links).1 l.u) l.v = true
      rw [List.contains_eq_any_beq, List.any_eq_true]
      exact ⟨l.v, h1, by simp⟩
    · show List.contains (adjGetRaw (registerAll (adjInit nodes, [] ) 0 links).1 l.v) l.u = true
      rw [List.contains_eq_any_beq, List.any_eq_true]
      exact ⟨l.u, h2, by simp⟩
  · intro e he v hv
    obtain ⟨l, hl, hm⟩ := hentries e.1 e.2 he v hv
    exact ⟨l, hl, hm⟩

theorem linkMatches_of_endpoints {l l' : Link} (hu : l'.u = l.u) (hv : l'.v = l.v)
    (u v : Int) : linkMatches l' u v = linkMatches l u v := by
  simp [linkMatches, hu, hv]

/-- Consistency only depends on the links' endpoints (position by
position) and on `adj` / `edge_index`; operations that merely rewrite
`enabled` flags preserve it. -/
theorem graphConsistent_endpoint_preserving (s s' : GraphState)
    (hadj : s'.adj = s.adj) (hei : s'.edge_index = s.edge_index)
    (hmap : ∀ i : Nat, (s'.links[i]?).map (fun l => (l.u, l.v)) =
      (s.links[i]?).map (fun l => (l.u, l.v)))
    (h : graphConsistent s = true) : graphConsistent s' = true := by
  unfold graphConsistent at h ⊢
  simp only [adjGet, Bool.and_eq_true, List.all_eq_true, List.any_eq_true] at h ⊢
  obtain ⟨⟨hA, hB⟩, hC⟩ := h
  refine ⟨⟨?_, ?_⟩, ?_⟩
  · intro e he
    rw [hei] at he ⊢
    have hAe := hA e he
    cases h1 : alookup s.edge_index (e.1.1, e.1.2) with
    | none => rw [h1] at hAe; simp at hAe
    | some i =>
      cases h2 : alookup s.edge_index (e.1.2, e.1.1) with
      | none => rw [h1, h2] at hAe; simp at hAe
      | some j =>
        rw [h1, h2] at hAe
        simp only [Bool.and_eq_true, decide_eq_true_eq] at hAe
        obtain ⟨hij, hmatch⟩ := hAe
        cases h3 : s.links[i]? with
        | none => rw [h3] at hmatch; simp at hmatch
        | some l =>
          rw [h3] at hmatch
          have h4 := hmap i
          rw [h3] at h4
          obtain ⟨l', h5, h6⟩ := Option.map_eq_some'.mp h4
          have h7 : l'.u = l.u ∧ l'.v = l.v := by
            rw [Prod.ext_iff] at h6; exact h6
          simp only [h5, Bool.and_eq_true, decide_eq_true_eq]
          exact ⟨hij, (linkMatches_of_endpoints h7.1 h7.2 e.1.1 e.1.2).trans hmatch⟩
  · intro l' hl'
    obtain ⟨i, hi⟩ := List.getElem?_of_mem hl'
    have h4 := hmap i
    rw [hi] at h4
    obtain ⟨l, h5, h6⟩ := Option.map_eq_some'.mp h4.symm
    have h7 : l.u = l'.u ∧ l.v = l'.v := by
      rw [Prod.ext_iff] at h6; exact h6
    have hl : l ∈ s.links := List.getElem?_mem h5
    obtain ⟨hc1, hc2⟩ := hB l hl
    rw [hadj, ← h7.1, ← h7.2]
    exact ⟨hc1, hc2⟩
  · intro e he v hv
    rw [hadj] at he
    obtain ⟨l, hl, hm⟩ := hC e he v hv
    obtain ⟨i, hi⟩ := List.getElem?_of_mem hl
    have h4 := hmap i
    rw [hi] at h4
    obtain ⟨l', h5, h6⟩ := Option.map_eq_some'.mp h4
    have h7 : l'.u = l.u ∧ l'.v = l.v := by
      rw [Prod.ext_iff] at h6; exact h6
    exact ⟨l', List.getElem?_mem h5, (linkMatches_of_endpoints h7.1 h7.2 e.1 v).trans hm⟩

theorem setEnabled_getElem (en : Bool) :
    ∀ (l : List Link) (i j : Nat),
      (setEnabled l i en)[j]? =
        if j = i then (l[j]?).map (fun x => { x with enabled := en }) else l[j]? := by
  intro l
  induction l with
  | nil => intro i j; by_cases h : j = i <;> simp [setEnabled, h]
  | cons hd tl ih =>
    intro i j
    cases i with
    | zero =>
      cases j with
      | zero => simp [setEnabled]
      | succ j' => simp [setEnabled]
    | succ i' =>
      cases j with
      | zero => simp [setEnabled]
      | succ j' =>
        have hcons1 : (setEnabled (hd :: tl) (i' + 1) en)[j' + 1]? =
            (setEnabled tl i' en)[j']? := by
          simp [setEnabled]
        rw [hcons1, ih i' j']
        by_cases h : j' = i'
        · simp [h]
        · have h2 : ¬ (j' + 1 = i' + 1) := by omega
          simp [h, h2]

/-- C7: after `build_graph`, and preserved by every `update_epoch` tick
and every successful toggle-link operation, both directed keys of
`edge_index` resolve to the same link index whose stored link has
exactly those endpoints, and `adj` lists `v` among `u`'s neighbours and
`u` among `v`'s neighbours exactly for the links present
(`graphConsistent`). -/
theorem graph_views_consistent :
    (∀ (O : RealOps) (cfg : BuildCfg) (nodes : List Node),
        graphConsistent (build_graph O cfg nodes) = true) ∧
      (∀ (s : GraphState) (r : Nat → ℚ), graphConsistent s = true →
        graphConsistent (update_epoch s r) = true) ∧
      (∀ (s s' : GraphState) (u v : Int) (en : Bool),
        graphConsistent s = true → post_toggle s u v en = some s' →
        graphConsistent s' = true) := by
  refine ⟨build_graph_consistent, ?_, ?_⟩
  · intro s r h
    refine graphConsistent_endpoint_preserving s (update_epoch s r) rfl rfl (fun i => ?_) h
    show ((flipLinks r 0 s.links)[i]?).map (fun l => (l.u, l.v)) = _
    rw [flipLinks_getElem r 0 s.links i]
    cases s.links[i]? with
    | none => rfl
    | some l =>
      simp only [Nat.zero_add, Option.map_some', Option.some.injEq, Prod.mk.injEq]
      by_cases hr : r i < 1 / 20
      · rw [if_pos hr]; exact ⟨rfl, rfl⟩
      · rw [if_neg hr]; exact ⟨rfl, rfl⟩
  · intro s s' u v en h htog
    unfold post_toggle at htog
    cases hl : alookup s.edge_index (u, v) with
    | none => rw [hl] at htog; exact absurd htog (by simp)
    | some idx =>
      rw [hl] at htog
      have hs' : s' = { s with links := setEnabled s.links idx en } := by
        injection htog with h1
        exact h1.symm
      subst hs'
      refine graphConsistent_endpoint_preserving s _ rfl rfl (fun i => ?_) h
      show ((setEnabled s.links idx en)[i]?).map (fun l => (l.u, l.v)) = _
      rw [setEnabled_getElem en s.links idx i]
      by_cases hi : i = idx
      · rw [if_pos hi]
        cases s.links[i]? with
        | none => rfl
        | some l => simp
      · rw [if_neg hi]

/-- C7 witness: the built two-node graph stays consistent through an
epoch tick, and toggling the fixture link off preserves consistency. -/
theorem graph_views_consistent_witness :
    graphConsistent (update_epoch (build_graph zeroOps cexBuildCfg [cexNodeHigh, cexNodeLow]) exR) = true ∧
      graphConsistent ((post_toggle exState 0 1 false).getD exState) = true := by
  constructor
  · exact graph_views_consistent.2.1 _ exR
      (graph_views_consistent.1 zeroOps cexBuildCfg [cexNodeHigh, cexNodeLow])
  · exact graph_views_consistent.2.2 exState _ 0 1 false (by decide) rfl

/-! ## ACO solver soundness (for C1, C2, C10): any returned best path is
a valid path over enabled edges from `src` to `dst` -/

theorem contains_of_mem {l : List Int} {x : Int} (h : x ∈ l) : l.contains x = true := by
  rw [List.contains_eq_any_beq, List.any_eq_true]
  exact ⟨x, h, by simp⟩

theorem mem_of_getLast?_eq {l : List Int} {x : Int} (h : l.getLast? = some x) : x ∈ l := by
  have hx : x ∈ l.getLast? := by rw [h]; rfl
  obtain ⟨hne, hx'⟩ := List.mem_getLast?_eq_getLast hx
  rw [hx']
  exact List.getLast_mem hne

theorem pymaxBy_foldl_mem (f : Int → ℚ) :
    ∀ (xs : List Int) (b : Int),
      xs.foldl (fun best y => if f y > f best then y else best) b = b ∨
        xs.foldl (fun best y => if f y > f best then y else best) b ∈ xs := by
  intro xs
  induction xs with
  | nil => intro b; exact Or.inl rfl
  | cons x rest ih =>
    intro b
    rw [List.foldl_cons]
    rcases ih (if f x > f b then x else b) with h | h
    · rw [h]
      by_cases hx : f x > f b
      · rw [if_pos hx]; exact Or.inr (List.mem_cons_self x rest)
      · rw [if_neg hx]; exact Or.inl rfl
    · exact Or.inr (List.mem_cons_of_mem x h)

theorem pymaxBy_mem {f : Int → ℚ} {l : List Int} {v : Int}
    (h : pymaxBy f l = some v) : v ∈ l := by
  match l with
  | [] => simp [pymaxBy] at h
  | x :: xs =>
    simp only [pymaxBy, Option.some.injEq] at h
    rcases pymaxBy_foldl_mem f xs x with h1 | h1
    · rw [← h, h1]; exact List.mem_cons_self x xs
    · rw [← h]; exact List.mem_cons_of_mem x h1

theorem pyChoice_mem {nbrs : List Int} (h : nbrs ≠ []) (r : ℚ) : pyChoice nbrs r ∈ nbrs := by
  unfold pyChoice
  have hlen : 0 < nbrs.length := List.length_pos.mpr h
  have hidx : min (Int.toNat ⌊r * nbrs.length⌋) (nbrs.length - 1) < nbrs.length := by
    have : nbrs.length - 1 < nbrs.length := by omega
    exact lt_of_le_of_lt (min_le_right _ _) this
  rw [List.getD_eq_getElem nbrs 0 hidx]
  exact List.getElem_mem hidx

theorem rouletteGo_mem (r ssum : ℚ) :
    ∀ (pairs : List (Int × ℚ)) (acc : ℚ) (v0 : Int),
      rouletteGo r ssum pairs acc v0 ∈ v0 :: pairs.map Prod.fst := by
  intro pairs
  induction pairs with
  | nil => intro acc v0; exact List.mem_singleton.mpr rfl
  | cons p rest ih =>
    intro acc v0
    obtain ⟨vv, sc⟩ := p
    rw [rouletteGo]
    by_cases hc : r ≤ acc + sc / ssum
    · rw [if_pos hc]
      exact List.mem_cons_of_mem v0 (List.mem_cons_self vv _)
    · rw [if_neg hc]
      rcases List.mem_cons.mp (ih (acc + sc / ssum) v0) with h1 | h1
      · rw [h1]; exact List.mem_cons_self v0 _
      · exact List.mem_cons_of_mem v0 (List.mem_cons_of_mem vv h1)

theorem selectNext_mem (E : AcoEnv) (tau : Tau) (cur : Int) {nbrs : List Int}
    (r : Nat → ℚ) (k : Nat) (h : nbrs ≠ []) :
    (selectNext E tau cur nbrs r k).1 ∈ nbrs := by
  unfold selectNext
  by_cases h1 : r k < E.cfg.q0
  · rw [if_pos h1]
    match hl : nbrs, h with
    | x :: xs, _ =>
      show ((pymaxBy (fun y => score E tau cur y) (x :: xs)).getD 0) ∈ x :: xs
      have : pymaxBy (fun y => score E tau cur y) (x :: xs) =
          some (xs.foldl (fun best y =>
            if score E tau cur y > score E tau cur best then y else best) x) := rfl
      rw [this, Option.getD_some]
      exact pymaxBy_mem this
  · rw [if_neg h1]
    by_cases h2 : (nbrs.map (fun v => score E tau cur v)).sum ≤ 0
    · rw [if_pos h2]
      exact pyChoice_mem h (r (k + 1))
    · rw [if_neg h2]
      show rouletteGo (r (k + 1)) _ (nbrs.zip _) 0 ((nbrs.getLast?).getD 0) ∈ nbrs
      have hlast : (nbrs.getLast?).getD 0 ∈ nbrs := by
        cases hg : nbrs.getLast? with
        | none => exact absurd (List.getLast?_eq_none_iff.mp hg) h
        | some x =>
          rw [Option.getD_some]
          exact mem_of_getLast?_eq hg
      rcases List.mem_cons.mp (rouletteGo_mem (r (k + 1)) _ (nbrs.zip (nbrs.map (fun v => score E tau cur v))) 0 ((nbrs.getLast?).getD 0)) with h3 | h3
      · rw [h3]; exact hlast
      · obtain ⟨pq, hpq, hfst⟩ := List.mem_map.mp h3
        rw [← hfst]
        exact (List.of_mem_zip hpq).1

theorem aNeighbors_step {E : AcoEnv} {u v : Int} (h : v ∈ aNeighbors E u) :
    stepB E.gs u v = true := by
  unfold aNeighbors at h
  have hmem := List.mem_of_mem_filter h
  have hpred := List.of_mem_filter h
  simp only [Bool.and_eq_true] at hpred
  unfold stepB
  rw [Bool.and_eq_true]
  exact ⟨contains_of_mem hmem, hpred.2⟩

theorem validPath_snoc {s : GraphState} {src cur v : Int} {p : List Int}
    (h : ValidPath s src cur p) (hs : stepB s cur v = true) :
    ValidPath s src v (p ++ [v]) := by
  obtain ⟨h1, h2, h3, h4⟩ := h
  refine ⟨by simp, ?_, List.getLast?_concat p, ?_⟩
  · rw [List.head?_append_of_ne_nil p h1]
    exact h2
  · rw [List.chain'_append]
    refine ⟨h4, List.chain'_singleton v, ?_⟩
    intro x hx y hy
    have hx' : x = cur := by
      rw [h3] at hx
      have h6 : cur = x := by simpa using hx
      exact h6.symm
    have hy' : y = v := by
      have h5 := hy
      simp only [List.head?_cons, Option.mem_some_iff] at h5
      exact h5.symm
    rw [hx', hy']
    exact hs

theorem validPath_single (s : GraphState) (x : Int) : ValidPath s x x [x] :=
  ⟨by simp, rfl, rfl, List.chain'_singleton x⟩

theorem antWalk_sound (E : AcoEnv) (r : Nat → ℚ) (src dst : Int) :
    ∀ (fuel : Nat) (cur : Int) (visited path : List Int) (costAcc : ℚ) (tau : Tau) (k : Nat)
      (p : List Int) (c : ℚ) (tau' : Tau) (k' : Nat),
      antWalk E r dst fuel cur visited path costAcc tau k = (some (p, c), tau', k') →
      ValidPath E.gs src cur path →
      ValidPath E.gs src dst p := by
  intro fuel
  induction fuel with
  | zero =>
    intro cur visited path costAcc tau k p c tau' k' h hchain
    rw [antWalk] at h
    by_cases hc : cur = dst
    · rw [if_pos hc] at h
      simp only [Prod.mk.injEq, Option.some.injEq] at h
      obtain ⟨⟨hp, _⟩, _⟩ := h
      rw [← hp, ← hc]
      exact hchain
    · rw [if_neg hc] at h
      simp at h
  | succ f ih =>
    intro cur visited path costAcc tau k p c tau' k' h hchain
    rw [antWalk] at h
    by_cases hc : cur = dst
    · rw [if_pos hc] at h
      simp only [Prod.mk.injEq, Option.some.injEq] at h
      obtain ⟨⟨hp, _⟩, _⟩ := h
      rw [← hp, ← hc]
      exact hchain
    · rw [if_neg hc] at h
      by_cases hn : (aNeighbors E cur).filter (fun v => !visited.contains v) = []
      · rw [if_pos hn] at h
        simp at h
      · rw [if_neg hn] at h
        refine ih _ _ _ _ _ _ p c tau' k' h ?_
        refine validPath_snoc hchain ?_
        have hv := selectNext_mem E tau cur r k hn
        exact aNeighbors_step (List.mem_of_mem_filter hv)

/-- The best-so-far entry, whenever present, is a valid path. -/
def BestOk (s : GraphState) (src dst : Int) (b : Option (List Int × ℚ)) : Prop :=
  ∀ p c, b = some (p, c) → ValidPath s src dst p

theorem runAnts_bestOk (E : AcoEnv) (r : Nat → ℚ) (src dst : Int) :
    ∀ (n : Nat) (best : Option (List Int × ℚ)) (tau : Tau) (k : Nat),
      BestOk E.gs src dst best →
      BestOk E.gs src dst (runAnts E r src dst n best tau k).1 := by
  intro n
  induction n with
  | zero => intro best tau k h; exact h
  | succ m ih =>
    intro best tau k h
    rw [runAnts]
    cases hres : (antWalk E r dst (walkFuel E.gs) src [src] [src] 0 tau k) with
    | mk resO resRest =>
      cases resO with
      | none =>
        simp only [hres]
        exact ih best resRest.1 resRest.2 h
      | some pc =>
        obtain ⟨p, c⟩ := pc
        simp only [hres]
        cases best with
        | none =>
          refine ih _ resRest.1 resRest.2 ?_
          intro p' c' hp'
          simp only [Option.some.injEq, Prod.mk.injEq] at hp'
          rw [← hp'.1]
          exact antWalk_sound E r src dst _ src [src] [src] 0 tau k p c resRest.1 resRest.2
            (by rw [hres]) (validPath_single E.gs src)
        | some bpc =>
          obtain ⟨bp, bc⟩ := bpc
          show BestOk E.gs src dst
            (runAnts E r src dst m (if c < bc then some (p, c) else some (bp, bc))
              resRest.1 resRest.2).1
          by_cases hlt : c < bc
          · rw [if_pos hlt]
            refine ih _ resRest.1 resRest.2 ?_
            intro p' c' hp'
            simp only [Option.some.injEq, Prod.mk.injEq] at hp'
            rw [← hp'.1]
            exact antWalk_sound E r src dst _ src [src] [src] 0 tau k p c resRest.1 resRest.2
              (by rw [hres]) (validPath_single E.gs src)
          · rw [if_neg hlt]
            refine ih _ resRest.1 resRest.2 ?_
            intro p' c' hp'
            simp only [Option.some.injEq, Prod.mk.injEq] at hp'
            rw [← hp'.1]
            exact h bp bc rfl

theorem solveLoop_bestOk (E : AcoEnv) (r : Nat → ℚ) (src dst : Int) :
    ∀ (n : Nat) (st : Option (List Int × ℚ) × Tau × Nat),
      BestOk E.gs src dst st.1 →
      BestOk E.gs src dst (solveLoop E r src dst n st).1 := by
  intro n
  induction n with
  | zero => intro st h; exact h
  | succ m ih =>
    intro st h
    rw [solveLoop]
    refine ih _ ?_
    show BestOk E.gs src dst (runAnts E r src dst E.cfg.ants st.1 st.2.1 st.2.2).1
    exact runAnts_bestOk E r src dst E.cfg.ants st.1 st.2.1 st.2.2 h

/-- Soundness of `ACO.solve`: a non-empty finite-cost result is a valid
path over enabled edges from `src` to `dst`. -/
theorem ACO_solve_sound {s : GraphState} {cfg : AcoParams} {wopt : Option (ℚ × ℚ × ℚ × ℚ)}
    {r : Nat → ℚ} {src dst : Int} {p : List Int} {c : ℚ}
    (h : ACO_solve s cfg wopt r src dst = some (p, c)) :
    ValidPath s src dst p := by
  have hsound := solveLoop_bestOk (acoEnv s cfg wopt) r src dst cfg.iters
    (none, tauInit (acoEnv s cfg wopt), 0) (by intro p' c' h'; simp at h')
  exact hsound p c h

/-- With `src = dst` every ant immediately returns `([src], 0)`, so the
solver's best entry is `none` (zero ants/iterations) or `some ([src], 0)`. -/
theorem antWalk_self (E : AcoEnv) (r : Nat → ℚ) (dst : Int) (fuel : Nat)
    (visited path : List Int) (costAcc : ℚ) (tau : Tau) (k : Nat) :
    antWalk E r dst fuel dst visited path costAcc tau k = (some (path, costAcc), tau, k) := by
  cases fuel with
  | zero => rw [antWalk, if_pos rfl]
  | succ f => rw [antWalk, if_pos rfl]

theorem runAnts_self (E : AcoEnv) (r : Nat → ℚ) (dst : Int) :
    ∀ (n : Nat) (best : Option (List Int × ℚ)) (tau : Tau) (k : Nat),
      (best = none ∨ best = some ([dst], 0)) →
      ((runAnts E r dst dst n best tau k).1 = none ∨
        (runAnts E r dst dst n best tau k).1 = some ([dst], 0)) ∧
      (0 < n → (runAnts E r dst dst n best tau k).1 = some ([dst], 0)) := by
  intro n
  induction n with
  | zero => intro best tau k h; exact ⟨h, fun hn => absurd hn (by omega)⟩
  | succ m ih =>
    intro best tau k h
    have hguard : ¬ ((0 : ℚ) < 0) := by norm_num
    have hstep : runAnts E r dst dst (m + 1) best tau k =
        runAnts E r dst dst m (some ([dst], 0)) tau k := by
      rcases h with h | h
      · subst h
        rw [runAnts, antWalk_self]
      · subst h
        rw [runAnts, antWalk_self]
        simp [hguard]
    rw [hstep]
    have hm := ih (some ([dst], 0)) tau k (Or.inr rfl)
    refine ⟨hm.1, fun _ => ?_⟩
    cases m with
    | zero => rfl
    | succ m' => exact hm.2 (by omega)

theorem solveLoop_self (E : AcoEnv) (r : Nat → ℚ) (dst : Int) :
    ∀ (n : Nat) (st : Option (List Int × ℚ) × Tau × Nat),
      (st.1 = none ∨ st.1 = some ([dst], 0)) →
      ((solveLoop E r dst dst n st).1 = none ∨
        (solveLoop E r dst dst n st).1 = some ([dst], 0)) := by
  intro n
  induction n with
  | zero => intro st h; exact h
  | succ m ih =>
    intro st h
    rw [solveLoop]
    refine ih _ ?_
    show (runAnts E r dst dst E.cfg.ants st.1 st.2.1 st.2.2).1 = none ∨ _
    exact (runAnts_self E r dst E.cfg.ants st.1 st.2.1 st.2.2 h).1

theorem ACO_solve_self (s : GraphState) (cfg : AcoParams) (wopt : Option (ℚ × ℚ × ℚ × ℚ))
    (r : Nat → ℚ) (dst : Int) :
    ACO_solve s cfg wopt r dst dst = none ∨
      ACO_solve s cfg wopt r dst dst = some ([dst], 0) :=
  solveLoop_self (acoEnv s cfg wopt) r dst cfg.iters
    (none, tauInit (acoEnv s cfg wopt), 0) (Or.inl rfl)

/-- With no traversable edge out of `src` (and `src ≠ dst`), every ant
dead-ends at once, so the solver returns `none`. -/
theorem antWalk_stuck (E : AcoEnv) (r : Nat → ℚ) (src dst : Int) (hne : src ≠ dst)
    (hstuck : ∀ v ∈ adjGet E.gs src, edgeEnabledB E.gs src v = false)
    (fuel : Nat) (visited path : List Int) (costAcc : ℚ) (tau : Tau) (k : Nat) :
    antWalk E r dst fuel src visited path costAcc tau k = (none, tau, k) := by
  have hnbrs : aNeighbors E src = [] := by
    unfold aNeighbors
    rw [List.filter_eq_nil_iff]
    intro v hv
    simp [hstuck v hv]
  cases fuel with
  | zero => rw [antWalk, if_neg hne]
  | succ f =>
    rw [antWalk, if_neg hne]
    have hfil : (aNeighbors E src).filter (fun v => !visited.contains v) = [] := by
      rw [hnbrs]
      rfl
    rw [if_pos hfil]

theorem runAnts_stuck (E : AcoEnv) (r : Nat → ℚ) (src dst : Int) (hne : src ≠ dst)
    (hstuck : ∀ v ∈ adjGet E.gs src, edgeEnabledB E.gs src v = false) :
    ∀ (n : Nat) (tau : Tau) (k : Nat),
      (runAnts E r src dst n none tau k).1 = none := by
  intro n
  induction n with
  | zero => intro tau k; rfl
  | succ m ih =>
    intro tau k
    rw [runAnts, antWalk_stuck E r src dst hne hstuck]
    exact ih tau k

theorem ACO_solve_stuck (s : GraphState) (cfg : AcoParams) (wopt : Option (ℚ × ℚ × ℚ × ℚ))
    (r : Nat → ℚ) (src dst : Int) (hne : src ≠ dst)
    (hstuck : ∀ v ∈ adjGet s src, edgeEnabledB s src v = false) :
    ACO_solve s cfg wopt r src dst = none := by
  have hloop : ∀ (n : Nat) (st : Option (List Int × ℚ) × Tau × Nat),
      st.1 = none → (solveLoop (acoEnv s cfg wopt) r src dst n st).1 = none := by
    intro n
    induction n with
    | zero => intro st h; exact h
    | succ m ih =>
      intro st h
      rw [solveLoop]
      refine ih _ ?_
      show (runAnts (acoEnv s cfg wopt) r src dst _ st.1 st.2.1 st.2.2).1 = none
      rw [h]
      exact runAnts_stuck (acoEnv s cfg wopt) r src dst hne hstuck _ st.2.1 st.2.2
  exact hloop cfg.iters (none, tauInit (acoEnv s cfg wopt), 0) rfl

/-! ## BFS fallback: soundness and completeness (for C1, C2, C10) -/

theorem mem_of_contains {l : List Int} {x : Int} (h : l.contains x = true) : x ∈ l := by
  rw [List.contains_eq_any_beq, List.any_eq_true] at h
  obtain ⟨y, hy, hxy⟩ := h
  rwa [show x = y by simpa using hxy]

theorem not_contains_of_not_mem {l : List Int} {x : Int} (h : x ∉ l) : l.contains x = false := by
  cases hc : l.contains x with
  | false => rfl
  | true => exact absurd (mem_of_contains hc) h

theorem stepB_dest {s : GraphState} {u v : Int} (h : stepB s u v = true) :
    v ∈ adjGet s u ∧ edgeEnabledB s u v = true := by
  unfold stepB at h
  rw [Bool.and_eq_true] at h
  exact ⟨mem_of_contains h.1, h.2⟩

theorem stepB_intro {s : GraphState} {u v : Int} (h1 : v ∈ adjGet s u)
    (h2 : edgeEnabledB s u v = true) : stepB s u v = true := by
  unfold stepB
  rw [Bool.and_eq_true]
  exact ⟨contains_of_mem h1, h2⟩

theorem aset_length_le {α β : Type} [DecidableEq α] (m : List (α × β)) (k : α) (v : β) :
    m.length ≤ (aset m k v).length := by
  induction m with
  | nil => simp [aset]
  | cons hd tl ih =>
    by_cases h : hd.1 = k
    · simp [aset, h]
    · simp only [aset, h, if_false, List.length_cons]
      omega

theorem aset_length_new {α β : Type} [DecidableEq α] {m : List (α × β)} {k : α} (v : β)
    (h : alookup m k = none) : (aset m k v).length = m.length + 1 := by
  induction m with
  | nil => rfl
  | cons hd tl ih =>
    by_cases h1 : hd.1 = k
    · rw [alookup, if_pos h1] at h
      exact absurd h (by simp)
    · rw [alookup, if_neg h1] at h
      simp only [aset, h1, if_false, List.length_cons, ih h]

theorem nodup_snoc {l : List Int} {v : Int} (h : l.Nodup) (hv : v ∉ l) :
    (l ++ [v]).Nodup := by
  rw [List.nodup_append]
  refine ⟨h, List.nodup_singleton v, ?_⟩
  intro a ha hav
  rw [List.mem_singleton] at hav
  exact hv (hav ▸ ha)

/-- Predecessor chains of the BFS: `p` walks from `src` to `v` following
`prev` entries, each hop traversable. -/
inductive PrevPath (s : GraphState) (src : Int) (prev : List (Int × Option Int)) :
    Int → List Int → Prop
  | base : alookup prev src = some none → PrevPath s src prev src [src]
  | step {u v : Int} {p : List Int} : PrevPath s src prev u p →
      alookup prev v = some (some u) → stepB s u v = true → PrevPath s src prev v (p ++ [v])

theorem prevPath_valid {s : GraphState} {src : Int} {prev : List (Int × Option Int)}
    {v : Int} {p : List Int} (h : PrevPath s src prev v p) : ValidPath s src v p := by
  induction h with
  | base _ => exact validPath_single s src
  | step _ _ hstep ih => exact validPath_snoc ih hstep

theorem prevPath_keys {s : GraphState} {src : Int} {prev : List (Int × Option Int)}
    {v : Int} {p : List Int} (h : PrevPath s src prev v p) :
    ∀ x ∈ p, (alookup prev x).isSome := by
  induction h with
  | base hb => intro x hx; rw [List.mem_singleton.mp hx, hb]; rfl
  | step _ hlook _ ih =>
    intro x hx
    rcases List.mem_append.mp hx with hx | hx
    · exact ih x hx
    · rw [List.mem_singleton.mp hx, hlook]; rfl

theorem prevPath_stable {s : GraphState} {src : Int} {prev : List (Int × Option Int)}
    {v w : Int} {o : Option Int} {p : List Int} (h : PrevPath s src prev v p)
    (hw : ∀ x ∈ p, x ≠ w) : PrevPath s src (aset prev w o) v p := by
  induction h with
  | base hb =>
    refine PrevPath.base ?_
    rw [alookup_aset_ne prev w src o (fun hc => (hw src (List.mem_singleton.mpr rfl)) hc.symm)]
    exact hb
  | step hp hlook hstep ih =>
    rename_i u v' p'
    refine PrevPath.step (ih (fun x hx => hw x (List.mem_append_left _ hx))) ?_ hstep
    rw [alookup_aset_ne prev w v' o
      (fun hc => (hw v' (List.mem_append_right _ (List.mem_singleton.mpr rfl))) hc.symm)]
    exact hlook

theorem reconstructAux_prevPath {s : GraphState} {src : Int}
    {prev : List (Int × Option Int)} :
    ∀ {v : Int} {p : List Int}, PrevPath s src prev v p →
      ∀ (fuel : Nat) (acc : List Int), p.length ≤ fuel + 1 →
        reconstructAux prev fuel v acc = p ++ acc := by
  intro v p h
  induction h with
  | base hb =>
    intro fuel acc _
    cases fuel with
    | zero => rfl
    | succ f =>
      rw [reconstructAux, hb]
      rfl
  | step hp hlook hstep ih =>
    rename_i u v' p'
    intro fuel acc hlen
    have hpne : p' ≠ [] := (prevPath_valid hp).1
    have hplen : 1 ≤ p'.length := List.length_pos.mpr hpne
    rw [List.length_append, List.length_singleton] at hlen
    cases fuel with
    | zero => omega
    | succ f =>
      rw [reconstructAux, hlook]
      show reconstructAux prev f u (v' :: acc) = (p' ++ [v']) ++ acc
      rw [ih f (v' :: acc) (by omega)]
      simp

theorem reconstruct_eq {s : GraphState} {src : Int} {prev : List (Int × Option Int)}
    {v : Int} {p : List Int} (h : PrevPath s src prev v p)
    (hlen : p.length ≤ prev.length + 1) : reconstruct prev v = p := by
  unfold reconstruct
  rw [reconstructAux_prevPath h prev.length [] hlen]
  simp

theorem universe_foldr_mem {u x : Int} {ns : List Int} :
    ∀ (m : List (Int × List Int)) (init : List Int), (u, ns) ∈ m → x ∈ ns →
      x ∈ m.foldr (fun e acc => e.1 :: e.2 ++ acc) init := by
  intro m
  induction m with
  | nil => intro init h _; simp at h
  | cons e rest ih =>
    intro init h hx
    rw [List.foldr_cons]
    rcases List.mem_cons.mp h with h1 | h1
    · rw [← h1]
      exact List.mem_cons_of_mem _ (List.mem_append_left _ hx)
    · exact List.mem_cons_of_mem _ (List.mem_append_right _ (ih init h1 hx))

theorem adjGet_subset_universe {s : GraphState} {u x : Int} (hx : x ∈ adjGet s u) :
    x ∈ universeList s := by
  unfold adjGet at hx
  cases hl : alookup s.adj u with
  | none => rw [hl] at hx; simp at hx
  | some ns =>
    rw [hl] at hx
    rw [Option.getD_some] at hx
    exact universe_foldr_mem s.adj [] (alookup_mem hl) hx

/-- Unvisited candidates: the termination measure's potential. -/
def unvis (s : GraphState) (visited : List Int) : Nat :=
  (((universeList s).dedup).filter (fun x => !visited.contains x)).length

theorem filter_length_erase_pred :
    ∀ (l : List Int), l.Nodup → ∀ (p : Int → Bool) (v : Int), v ∈ l → p v = true →
      (l.filter (fun x => p x && !(x == v))).length + 1 = (l.filter p).length := by
  intro l
  induction l with
  | nil => intro _ p v hv; simp at hv
  | cons a rest ih =>
    intro hnd p v hv hp
    have hnd' := List.nodup_cons.mp hnd
    rcases List.mem_cons.mp hv with h1 | h1
    · subst h1
      rw [List.filter_cons, List.filter_cons]
      have ha : (p v && !(v == v)) = false := by simp
      rw [ha, if_neg (by simp), hp, if_pos rfl]
      have hrest : rest.filter (fun x => p x && !(x == v)) = rest.filter p := by
        apply List.filter_congr
        intro x hx
        have hxv : ¬ (x = v) := fun hc => hnd'.1 (hc ▸ hx)
        simp [hxv]
      rw [hrest]
      simp
    · rw [List.filter_cons, List.filter_cons]
      have hav : ¬ (a = v) := fun hc => hnd'.1 (hc ▸ h1)
      have ha : (p a && !(a == v)) = p a := by simp [hav]
      rw [ha]
      cases hpa : p a with
      | true =>
        rw [if_pos rfl, if_pos rfl]
        simp only [List.length_cons]
        rw [← ih hnd'.2 p v h1 hp]
      | false =>
        rw [if_neg (by simp), if_neg (by simp)]
        exact ih hnd'.2 p v h1 hp

theorem unvis_cons {s : GraphState} {visited : List Int} {v : Int}
    (hv : v ∈ universeList s) (hnv : v ∉ visited) :
    unvis s (v :: visited) + 1 = unvis s visited := by
  unfold unvis
  have hpred : (fun x => !(v :: visited).contains x) =
      (fun x => (!visited.contains x) && !(x == v)) := by
    funext x
    rw [List.contains_cons]
    rw [Bool.not_or]
    rw [Bool.and_comm]
  rw [hpred]
  exact filter_length_erase_pred ((universeList s).dedup) (List.nodup_dedup _)
    (fun x => !visited.contains x) v (List.mem_dedup.mpr hv)
    (by
      show (!visited.contains v) = true
      rw [not_contains_of_not_mem hnv]
      rfl)

theorem unvis_le (s : GraphState) (visited : List Int) :
    unvis s visited ≤ (universeList s).length :=
  le_trans (List.length_filter_le _ _) (List.Sublist.length_le (List.dedup_sublist _))

/-- Postcondition of the neighbour scan: an early return is a valid
path to `dst`; otherwise the new work-list state extends the old one,
keeps every invariant of the search, covers the scanned neighbours, and
does not increase the termination measure. -/
def ScanPost (s : GraphState) (src dst u : Int) (ns visited dq : List Int) :
    (List Int × List (Int × Option Int) × List Int) ⊕ List Int → Prop
  | Sum.inr res => ValidPath s src dst res
  | Sum.inl st =>
      (∀ x ∈ visited, x ∈ st.1) ∧ src ∈ st.1 ∧ dst ∉ st.1 ∧
      (∀ x ∈ st.2.2, x ∈ st.1) ∧ st.2.2.Nodup ∧ st.1.Nodup ∧ u ∉ st.2.2 ∧ u ∈ st.1 ∧
      (∀ w ∈ st.1, w ∉ st.2.2 → w ≠ u → ∀ x, stepB s w x = true → x ∈ st.1) ∧
      (∀ x ∈ ns, edgeEnabledB s u x = true → x ∈ st.1) ∧
      (∀ w ∈ st.1, ∃ p, PrevPath s src st.2.1 w p ∧ p.Nodup ∧ ∀ x ∈ p, x ∈ st.1) ∧
      (∀ (w : Int) (o : Option Int), alookup st.2.1 w = some o → w ∈ st.1) ∧
      st.1.length ≤ st.2.1.length ∧
      2 * unvis s st.1 + st.2.2.length ≤ 2 * unvis s visited + dq.length

theorem bfsScan_spec (s : GraphState) (src dst u : Int) :
    ∀ (ns visited : List Int) (prev : List (Int × Option Int)) (dq : List Int),
      u ∈ visited → src ∈ visited → dst ∉ visited →
      (∀ x ∈ dq, x ∈ visited) → dq.Nodup → visited.Nodup → u ∉ dq →
      (∀ w ∈ visited, w ∉ dq → w ≠ u → ∀ x, stepB s w x = true → x ∈ visited) →
      (∀ w ∈ visited, ∃ p, PrevPath s src prev w p ∧ p.Nodup ∧ ∀ x ∈ p, x ∈ visited) →
      (∀ (w : Int) (o : Option Int), alookup prev w = some o → w ∈ visited) →
      visited.length ≤ prev.length →
      (∀ x ∈ ns, x ∈ adjGet s u) →
      ScanPost s src dst u ns visited dq (bfsScan s dst u ns visited prev dq) := by
  intro ns
  induction ns with
  | nil =>
    intro visited prev dq hu hsrc hdst hdq hdqnd hvnd hundq hclosed hprev hkeys hlen _
    show ScanPost s src dst u [] visited dq (Sum.inl (visited, prev, dq))
    exact ⟨fun x hx => hx, hsrc, hdst, hdq, hdqnd, hvnd, hundq, hu, hclosed,
      fun x hx => absurd hx (List.not_mem_nil x), hprev, hkeys, hlen, le_refl _⟩
  | cons v vs ih =>
    intro visited prev dq hu hsrc hdst hdq hdqnd hvnd hundq hclosed hprev hkeys hlen hns
    by_cases hen : edgeEnabledB s u v = false
    · have hrw : bfsScan s dst u (v :: vs) visited prev dq =
          bfsScan s dst u vs visited prev dq := by
        rw [bfsScan, if_pos hen]
      rw [hrw]
      have hrec := ih visited prev dq hu hsrc hdst hdq hdqnd hvnd hundq hclosed hprev hkeys
        hlen (fun x hx => hns x (List.mem_cons_of_mem v hx))
      cases hres : bfsScan s dst u vs visited prev dq with
      | inr res => rw [hres] at hrec; exact hrec
      | inl st =>
        rw [hres] at hrec
        obtain ⟨A1, A2, A3, A4, A5, A6, A7, A8, A9, A10, A11, A12, A13, A14⟩ := hrec
        refine ⟨A1, A2, A3, A4, A5, A6, A7, A8, A9, ?_, A11, A12, A13, A14⟩
        intro x hx henx
        rcases List.mem_cons.mp hx with hx | hx
        · rw [hx] at henx; rw [henx] at hen; exact absurd hen (by simp)
        · exact A10 x hx henx
    · rw [Bool.not_eq_false] at hen
      by_cases hvis : visited.contains v
      · have hrw : bfsScan s dst u (v :: vs) visited prev dq =
            bfsScan s dst u vs visited prev dq := by
          rw [bfsScan, if_neg (by rw [hen]; simp), if_pos hvis]
        rw [hrw]
        have hrec := ih visited prev dq hu hsrc hdst hdq hdqnd hvnd hundq hclosed hprev hkeys
          hlen (fun x hx => hns x (List.mem_cons_of_mem v hx))
        cases hres : bfsScan s dst u vs visited prev dq with
        | inr res => rw [hres] at hrec; exact hrec
        | inl st =>
          rw [hres] at hrec
          obtain ⟨A1, A2, A3, A4, A5, A6, A7, A8, A9, A10, A11, A12, A13, A14⟩ := hrec
          refine ⟨A1, A2, A3, A4, A5, A6, A7, A8, A9, ?_, A11, A12, A13, A14⟩
          intro x hx henx
          rcases List.mem_cons.mp hx with hx | hx
          · rw [hx]; exact A1 v (mem_of_contains hvis)
          · exact A10 x hx henx
      · -- fresh neighbour: mark visited, set the predecessor, maybe finish
        have hvnotmem : v ∉ visited := fun hc => hvis (contains_of_mem hc)
        have hstepuv : stepB s u v = true := stepB_intro (hns v (List.mem_cons_self v vs)) hen
        have hvkeynone : alookup prev v = none := by
          cases hk : alookup prev v with
          | none => rfl
          | some o => exact absurd (hkeys v o hk) hvnotmem
        -- the new predecessor map and the chain reaching v
        obtain ⟨pu, hpu, hpund, hpusub⟩ := hprev u hu
        have hpustable : PrevPath s src (aset prev v (some u)) u pu :=
          prevPath_stable hpu (fun x hx hxv => hvnotmem (hxv ▸ hpusub x hx))
        have hpv : PrevPath s src (aset prev v (some u)) v (pu ++ [v]) :=
          PrevPath.step hpustable (alookup_aset_self prev v (some u)) hstepuv
        have hpvnd : (pu ++ [v]).Nodup :=
          nodup_snoc hpund (fun hc => hvnotmem (hpusub v hc))
        have hpulen : pu.length ≤ visited.length :=
          (List.Nodup.subperm hpund fun x hx => hpusub x hx).length_le
        have hset : (aset prev v (some u)).length = prev.length + 1 :=
          aset_length_new (some u) hvkeynone
        by_cases hvd : v = dst
        · have hrw : bfsScan s dst u (v :: vs) visited prev dq =
              Sum.inr (reconstruct (aset prev v (some u)) v) := by
            rw [bfsScan, if_neg (by rw [hen]; simp), if_neg hvis]
            show (if v = dst then Sum.inr (reconstruct (aset prev v (some u)) v)
              else bfsScan s dst u vs (v :: visited) (aset prev v (some u)) (dq ++ [v])) = _
            rw [if_pos hvd]
          rw [hrw]
          show ValidPath s src dst (reconstruct (aset prev v (some u)) v)
          have hlenok : (pu ++ [v]).length ≤ (aset prev v (some u)).length + 1 := by
            rw [List.length_append, List.length_singleton, hset]
            omega
          rw [reconstruct_eq hpv hlenok, ← hvd]
          exact prevPath_valid hpv
        · have hrw : bfsScan s dst u (v :: vs) visited prev dq =
              bfsScan s dst u vs (v :: visited) (aset prev v (some u)) (dq ++ [v]) := by
            rw [bfsScan, if_neg (by rw [hen]; simp), if_neg hvis]
            show (if v = dst then Sum.inr (reconstruct (aset prev v (some u)) v)
              else bfsScan s dst u vs (v :: visited) (aset prev v (some u)) (dq ++ [v])) = _
            rw [if_neg hvd]
          rw [hrw]
          have huv : u ≠ v := fun hc => hvnotmem (hc ▸ hu)
          have hu' : u ∈ v :: visited := List.mem_cons_of_mem v hu
          have hsrc' : src ∈ v :: visited := List.mem_cons_of_mem v hsrc
          have hdst' : dst ∉ v :: visited := by
            intro hc
            rcases List.mem_cons.mp hc with hc | hc
            · exact hvd hc.symm
            · exact hdst hc
          have hdq' : ∀ x ∈ dq ++ [v], x ∈ v :: visited := by
            intro x hx
            rcases List.mem_append.mp hx with hx | hx
            · exact List.mem_cons_of_mem v (hdq x hx)
            · rw [List.mem_singleton.mp hx]; exact List.mem_cons_self v visited
          have hdqnd' : (dq ++ [v]).Nodup :=
            nodup_snoc hdqnd (fun hc => hvnotmem (hdq v hc))
          have hvnd' : (v :: visited).Nodup := List.nodup_cons.mpr ⟨hvnotmem, hvnd⟩
          have hundq' : u ∉ dq ++ [v] := by
            intro hc
            rcases List.mem_append.mp hc with hc | hc
            · exact hundq hc
            · exact huv (List.mem_singleton.mp hc)
          have hclosed' : ∀ w ∈ v :: visited, w ∉ dq ++ [v] → w ≠ u →
              ∀ x, stepB s w x = true → x ∈ v :: visited := by
            intro w hw hwdq hwu x hx
            rcases List.mem_cons.mp hw with hw | hw
            · exact absurd (List.mem_append_right dq (List.mem_singleton.mpr hw)) hwdq
            · exact List.mem_cons_of_mem v
                (hclosed w hw (fun hc => hwdq (List.mem_append_left _ hc)) hwu x hx)
          have hprev' : ∀ w ∈ v :: visited, ∃ p,
              PrevPath s src (aset prev v (some u)) w p ∧ p.Nodup ∧
                ∀ x ∈ p, x ∈ v :: visited := by
            intro w hw
            rcases List.mem_cons.mp hw with hw | hw
            · refine ⟨pu ++ [v], hw ▸ hpv, hpvnd, ?_⟩
              intro x hx
              rcases List.mem_append.mp hx with hx | hx
              · exact List.mem_cons_of_mem v (hpusub x hx)
              · rw [List.mem_singleton.mp hx]; exact List.mem_cons_self v visited
            · obtain ⟨p, hp, hpnd, hpsub⟩ := hprev w hw
              exact ⟨p, prevPath_stable hp (fun x hx hxv => hvnotmem (hxv ▸ hpsub x hx)),
                hpnd, fun x hx => List.mem_cons_of_mem v (hpsub x hx)⟩
          have hkeys' : ∀ (w : Int) (o : Option Int),
              alookup (aset prev v (some u)) w = some o → w ∈ v :: visited := by
            intro w o hw
            by_cases hwv : v = w
            · rw [← hwv]; exact List.mem_cons_self v visited
            · rw [alookup_aset_ne prev v w (some u) hwv] at hw
              exact List.mem_cons_of_mem v (hkeys w o hw)
          have hlen' : (v :: visited).length ≤ (aset prev v (some u)).length := by
            rw [List.length_cons, hset]
            omega
          have hns' : ∀ x ∈ vs, x ∈ adjGet s u :=
            fun x hx => hns x (List.mem_cons_of_mem v hx)
          have hrec := ih (v :: visited) (aset prev v (some u)) (dq ++ [v]) hu' hsrc'
            hdst' hdq' hdqnd' hvnd' hundq' hclosed' hprev' hkeys' hlen' hns'
          cases hres : bfsScan s dst u vs (v :: visited) (aset prev v (some u)) (dq ++ [v]) with
          | inr res => rw [hres] at hrec; exact hrec
          | inl st =>
            rw [hres] at hrec
            obtain ⟨A1, A2, A3, A4, A5, A6, A7, A8, A9, A10, A11, A12, A13, A14⟩ := hrec
            refine ⟨fun x hx => A1 x (List.mem_cons_of_mem v hx), A2, A3, A4, A5, A6, A7,
              A8, A9, ?_, A11, A12, A13, ?_⟩
            · intro x hx henx
              rcases List.mem_cons.mp hx with hx | hx
              · rw [hx]; exact A1 v (List.mem_cons_self v visited)
              · exact A10 x hx henx
            · have hc := unvis_cons (adjGet_subset_universe (hns v (List.mem_cons_self v vs)))
                hvnotmem
              have hl := A14
              rw [List.length_append, List.length_singleton] at hl
              omega

theorem chain'_closed {s : GraphState} {visited : List Int}
    (hclosed : ∀ w ∈ visited, ∀ x, stepB s w x = true → x ∈ visited) :
    ∀ (p : List Int) (a : Int), p.head? = some a → a ∈ visited →
      List.Chain' (fun x y => stepB s x y = true) p → ∀ x ∈ p, x ∈ visited := by
  intro p
  induction p with
  | nil => intro a _ _ _ x hx; exact absurd hx (List.not_mem_nil x)
  | cons b t ih =>
    intro a ha hav hch x hx
    have hba : b = a := by simpa using ha
    rw [← hba] at hav
    cases t with
    | nil =>
      rw [List.mem_singleton.mp hx]
      exact hav
    | cons c t' =>
      rw [List.chain'_cons] at hch
      have hcv : c ∈ visited := hclosed b hav c hch.1
      rcases List.mem_cons.mp hx with hx | hx
      · rw [hx]; exact hav
      · exact ih c rfl hcv hch.2 x hx

/-- A visited set that contains `src`, misses `dst`, and is closed under
enabled hops witnesses unreachability. -/
theorem closed_no_path {s : GraphState} {src dst : Int} {visited : List Int}
    (hsrc : src ∈ visited) (hdst : dst ∉ visited)
    (hclosed : ∀ w ∈ visited, ∀ x, stepB s w x = true → x ∈ visited) :
    ¬ ∃ p, ValidPath s src dst p := by
  rintro ⟨p, hne, hh, hl, hch⟩
  have hall := chain'_closed hclosed p src hh hsrc hch
  exact hdst (hall dst (mem_of_getLast?_eq hl))

theorem bfsLoop_spec (s : GraphState) (src dst : Int) :
    ∀ (fuel : Nat) (visited : List Int) (prev : List (Int × Option Int)) (dq : List Int),
      src ∈ visited → dst ∉ visited →
      (∀ x ∈ dq, x ∈ visited) → dq.Nodup → visited.Nodup →
      (∀ w ∈ visited, w ∉ dq → ∀ x, stepB s w x = true → x ∈ visited) →
      (∀ w ∈ visited, ∃ p, PrevPath s src prev w p ∧ p.Nodup ∧ ∀ x ∈ p, x ∈ visited) →
      (∀ (w : Int) (o : Option Int), alookup prev w = some o → w ∈ visited) →
      visited.length ≤ prev.length →
      2 * unvis s visited + dq.length ≤ fuel →
      (bfsLoop s dst fuel visited prev dq ≠ [] →
        ValidPath s src dst (bfsLoop s dst fuel visited prev dq)) ∧
      (bfsLoop s dst fuel visited prev dq = [] → ¬ ∃ p, ValidPath s src dst p) := by
  intro fuel
  induction fuel with
  | zero =>
    intro visited prev dq hsrc hdst hdq hdqnd hvnd hclosed hprev hkeys hlen hfuel
    cases dq with
    | nil =>
      refine ⟨fun hne => absurd rfl hne, fun _ => ?_⟩
      exact closed_no_path hsrc hdst
        (fun w hw x hx => hclosed w hw (List.not_mem_nil w) x hx)
    | cons q qs =>
      rw [List.length_cons] at hfuel
      omega
  | succ f ih =>
    intro visited prev dq hsrc hdst hdq hdqnd hvnd hclosed hprev hkeys hlen hfuel
    cases dq with
    | nil =>
      refine ⟨fun hne => absurd rfl hne, fun _ => ?_⟩
      exact closed_no_path hsrc hdst
        (fun w hw x hx => hclosed w hw (List.not_mem_nil w) x hx)
    | cons q rest =>
      have hqnd := List.nodup_cons.mp hdqnd
      have hscan := bfsScan_spec s src dst q (adjGet s q) visited prev rest
        (hdq q (List.mem_cons_self q rest)) hsrc hdst
        (fun x hx => hdq x (List.mem_cons_of_mem q hx)) hqnd.2 hvnd hqnd.1
        (fun w hw hwr hwq x hx => hclosed w hw
          (fun hc => (List.mem_cons.mp hc).elim hwq hwr) x hx)
        hprev hkeys hlen (fun x hx => hx)
      cases hres : bfsScan s dst q (adjGet s q) visited prev rest with
      | inr path =>
        rw [hres] at hscan
        have hL : bfsLoop s dst (f + 1) visited prev (q :: rest) = path := by
          rw [bfsLoop, hres]
        rw [hL]
        exact ⟨fun _ => hscan, fun hnil => absurd hnil hscan.1⟩
      | inl st =>
        obtain ⟨v', p', d'⟩ := st
        rw [hres] at hscan
        obtain ⟨A1, A2, A3, A4, A5, A6, A7, A8, A9, A10, A11, A12, A13, A14⟩ := hscan
        have hL : bfsLoop s dst (f + 1) visited prev (q :: rest) =
            bfsLoop s dst f v' p' d' := by
          rw [bfsLoop, hres]
        rw [hL]
        have hclosed' : ∀ w ∈ v', w ∉ d' → ∀ x, stepB s w x = true → x ∈ v' := by
          intro w hw hwd x hx
          by_cases hwq : w = q
          · obtain ⟨hmem, hen⟩ := stepB_dest hx
            rw [hwq] at hmem hen
            exact A10 x hmem hen
          · exact A9 w hw hwd hwq x hx
        have hfuel' : 2 * unvis s v' + d'.length ≤ f := by
          have hA : 2 * unvis s v' + d'.length ≤ 2 * unvis s visited + rest.length := A14
          rw [List.length_cons] at hfuel
          omega
        exact ih v' p' d' A2 A3 A4 A5 A6 hclosed' A11 A12 A13 hfuel'

/-- `_bfs_path` with `src ≠ dst` is sound (a non-empty answer is a
walk of enabled hops from `src` to `dst`) and complete (an empty
answer certifies that none exists). -/
theorem bfs_path_spec (s : GraphState) (src dst : Int) (hne : src ≠ dst) :
    (bfs_path s src dst ≠ [] → ValidPath s src dst (bfs_path s src dst)) ∧
    (bfs_path s src dst = [] → ¬ ∃ p, ValidPath s src dst p) := by
  have hbfs : bfs_path s src dst = bfsLoop s dst (bfsFuel s) [src] [(src, none)] [src] := by
    rw [bfs_path, if_neg hne]
  rw [hbfs]
  refine bfsLoop_spec s src dst (bfsFuel s) [src] [(src, none)] [src]
    (List.mem_singleton.mpr rfl) ?_ (fun x hx => hx) (List.nodup_singleton src)
    (List.nodup_singleton src) ?_ ?_ ?_ (le_refl 1) ?_
  · intro hc
    exact hne (List.mem_singleton.mp hc).symm
  · intro w hw hwdq
    exact absurd hw hwdq
  · intro w hw
    rw [List.mem_singleton.mp hw]
    refine ⟨[src], PrevPath.base ?_, List.nodup_singleton src, ?_⟩
    · rw [alookup, if_pos rfl]
    · intro x hx
      rw [List.mem_singleton.mp hx]
      exact List.mem_singleton.mpr rfl
  · intro w o hw
    by_cases hws : src = w
    · rw [← hws]; exact List.mem_singleton.mpr rfl
    · rw [alookup, if_neg hws, alookup] at hw
      exact absurd hw (by simp)
  · have := unvis_le s [src]
    unfold bfsFuel
    rw [List.length_singleton]
    omega

/-! ## `wfB` transfer: traversable hops agree with enabled links -/

theorem wfB_step_to_link {s : GraphState} (hwf : wfB s = true) {u v : Int}
    (h : stepB s u v = true) : existsEnabledLink s u v = true := by
  obtain ⟨hmem, hen⟩ := stepB_dest h
  unfold wfB at hwf
  rw [Bool.and_eq_true] at hwf
  have hadj := hwf.2
  rw [List.all_eq_true] at hadj
  unfold adjGet at hmem
  cases hl : alookup s.adj u with
  | none => rw [hl] at hmem; exact absurd hmem (List.not_mem_nil v)
  | some ns =>
    rw [hl, Option.getD_some] at hmem
    have he := hadj (u, ns) (alookup_mem hl)
    rw [List.all_eq_true] at he
    have hv := he v hmem
    rw [Bool.or_eq_true, Bool.not_eq_true'] at hv
    rcases hv with hv | hv
    · rw [hen] at hv; exact absurd hv (by simp)
    · exact hv

theorem wfB_link_to_step {s : GraphState} (hwf : wfB s = true) {u v : Int}
    (h : existsEnabledLink s u v = true) : stepB s u v = true := by
  unfold existsEnabledLink at h
  rw [List.any_eq_true] at h
  obtain ⟨l, hl, hp⟩ := h
  rw [Bool.and_eq_true] at hp
  obtain ⟨henab, hm⟩ := hp
  unfold wfB at hwf
  rw [Bool.and_eq_true] at hwf
  have hlinks := hwf.1
  rw [List.all_eq_true] at hlinks
  have hstep := hlinks l hl
  rw [Bool.or_eq_true, Bool.not_eq_true'] at hstep
  rcases hstep with hstep | hstep
  · rw [henab] at hstep; exact absurd hstep (by simp)
  · rw [Bool.and_eq_true] at hstep
    unfold linkMatches at hm
    rw [decide_eq_true_eq] at hm
    rcases hm with ⟨h1, h2⟩ | ⟨h1, h2⟩
    · rw [← h1, ← h2]; exact hstep.1
    · rw [← h2, ← h1]; exact hstep.2

/-- Under `wfB`, the work-list notion of a path (hops through `adj` and
`edge_index`) coincides with the claim's notion (hops covered by enabled
links of `s.links`). -/
theorem validPath_iff_linksPath {s : GraphState} (hwf : wfB s = true)
    {src dst : Int} {p : List Int} :
    ValidPath s src dst p ↔ LinksPath s src dst p := by
  unfold ValidPath LinksPath
  constructor
  · rintro ⟨h1, h2, h3, h4⟩
    exact ⟨h1, h2, h3, h4.imp (fun _ _ hab => wfB_step_to_link hwf hab)⟩
  · rintro ⟨h1, h2, h3, h4⟩
    exact ⟨h1, h2, h3, h4.imp (fun _ _ hab => wfB_link_to_step hwf hab)⟩

/-! ## The branches of `post_route`, and `/route` without validation -/

theorem post_route_some (O : RealOps) (cfg : AcoParams) (s : GraphState) (r : Nat → ℚ)
    (src dst : Int) (wopt : Option (ℚ × ℚ × ℚ × ℚ)) (pc : List Int × ℚ)
    (haco : ACO_solve s cfg wopt r src dst = some pc) :
    post_route O cfg s r src dst wopt =
      RouteResp.ok pc.1 pc.2 (path_latency_ms_for_state O pc.1 s.nodes)
        (path_throughput_mbps_for_state O pc.1 s.nodes) := by
  unfold post_route
  rw [haco]

theorem post_route_none_nil (O : RealOps) (cfg : AcoParams) (s : GraphState) (r : Nat → ℚ)
    (src dst : Int) (wopt : Option (ℚ × ℚ × ℚ × ℚ))
    (haco : ACO_solve s cfg wopt r src dst = none) (hbfs : bfs_path s src dst = []) :
    post_route O cfg s r src dst wopt = RouteResp.unprocessable := by
  unfold post_route
  rw [haco]
  dsimp only
  rw [if_pos hbfs]

theorem post_route_none_cons (O : RealOps) (cfg : AcoParams) (s : GraphState) (r : Nat → ℚ)
    (src dst : Int) (wopt : Option (ℚ × ℚ × ℚ × ℚ))
    (haco : ACO_solve s cfg wopt r src dst = none) (hbfs : bfs_path s src dst ≠ []) :
    post_route O cfg s r src dst wopt =
      RouteResp.ok (bfs_path s src dst)
        (fallbackCost (compute_edge_costs s (wopt.getD cfg.weights)) (bfs_path s src dst))
        (path_latency_ms_for_state O (bfs_path s src dst) s.nodes)
        (path_throughput_mbps_for_state O (bfs_path s src dst) s.nodes) := by
  unfold post_route
  rw [haco]
  dsimp only
  rw [if_neg hbfs]

theorem bfsLoop_nil (s : GraphState) (dst : Int) (visited : List Int)
    (prev : List (Int × Option Int)) : ∀ fuel, bfsLoop s dst fuel visited prev [] = [] := by
  intro fuel
  cases fuel with
  | zero => rfl
  | succ f => rfl

theorem bfsScan_all_disabled (s : GraphState) (dst u : Int) :
    ∀ (ns visited : List Int) (prev : List (Int × Option Int)) (dq : List Int),
      (∀ v ∈ ns, edgeEnabledB s u v = false) →
      bfsScan s dst u ns visited prev dq = Sum.inl (visited, prev, dq) := by
  intro ns
  induction ns with
  | nil => intro visited prev dq _; rfl
  | cons v vs ih =>
    intro visited prev dq h
    rw [bfsScan, if_pos (h v (List.mem_cons_self v vs))]
    exact ih visited prev dq (fun x hx => h x (List.mem_cons_of_mem v hx))

/-- With every edge out of `src` missing or disabled, the BFS pops
`src`, pushes nothing, and exhausts its work list at once. -/
theorem bfs_path_stuck (s : GraphState) (src dst : Int) (hne : src ≠ dst)
    (hstuck : ∀ v ∈ adjGet s src, edgeEnabledB s src v = false) :
    bfs_path s src dst = [] := by
  rw [bfs_path, if_neg hne]
  have hstep : ∀ f, bfsLoop s dst (f + 1) [src] [(src, none)] [src] = [] := by
    intro f
    rw [bfsLoop, bfsScan_all_disabled s dst src (adjGet s src) [src] [(src, none)] [] hstuck]
    exact bfsLoop_nil s dst [src] [(src, none)] f
  exact hstep (2 * (universeList s).length + 1)

/-- With `src = dst`, both the solver (`ACO_solve_self`) and the BFS
fallback produce `[src]`, and both metric helpers short-circuit to `0`
on a one-node path, so the handler always answers 200 with cost 0. -/
theorem post_route_self (O : RealOps) (cfg : AcoParams) (s : GraphState) (r : Nat → ℚ)
    (dst : Int) (wopt : Option (ℚ × ℚ × ℚ × ℚ)) :
    post_route O cfg s r dst dst wopt = RouteResp.ok [dst] 0 0 0 := by
  rcases ACO_solve_self s cfg wopt r dst with haco | haco
  · have hb : bfs_path s dst dst = [dst] := by rw [bfs_path, if_pos rfl]
    have hbne : bfs_path s dst dst ≠ [] := by rw [hb]; simp
    rw [post_route_none_cons O cfg s r dst dst wopt haco hbne, hb]
    rfl
  · rw [post_route_some O cfg s r dst dst wopt ([dst], 0) haco]
    rfl

/-- C1: with `src ≠ dst`, `post_route` answers 422 exactly when no path
of enabled links joins `src` to `dst` in the current graph: a `some`
answer of the ACO solver is always a walk over enabled edges, and
otherwise the handler falls back to `_bfs_path`, whose empty answer is
sound and complete for unreachability.  (`wfB` ties the `adj` /
`edge_index` views walked by the code to the `enabled` flags of
`s.links`; every state built by `build_graph` satisfies it.) -/
theorem route_422_iff_unreachable (O : RealOps) (cfg : AcoParams) (s : GraphState)
    (r : Nat → ℚ) (src dst : Int) (wopt : Option (ℚ × ℚ × ℚ × ℚ))
    (hwf : wfB s = true) (hne : src ≠ dst) :
    post_route O cfg s r src dst wopt = RouteResp.unprocessable ↔
      ¬ ∃ p, LinksPath s src dst p := by
  have hiff : (∃ p, ValidPath s src dst p) ↔ ∃ p, LinksPath s src dst p :=
    exists_congr (fun _ => validPath_iff_linksPath hwf)
  rw [← hiff]
  constructor
  · intro h422
    cases haco : ACO_solve s cfg wopt r src dst with
    | some pc =>
      rw [post_route_some O cfg s r src dst wopt pc haco] at h422
      exact absurd h422 (by simp)
    | none =>
      by_cases hbfs : bfs_path s src dst = []
      · exact (bfs_path_spec s src dst hne).2 hbfs
      · rw [post_route_none_cons O cfg s r src dst wopt haco hbfs] at h422
        exact absurd h422 (by simp)
  · intro hnp
    cases haco : ACO_solve s cfg wopt r src dst with
    | some pc =>
      obtain ⟨p0, c0⟩ := pc
      exact absurd ⟨p0, ACO_solve_sound haco⟩ hnp
    | none =>
      by_cases hbfs : bfs_path s src dst = []
      · exact post_route_none_nil O cfg s r src dst wopt haco hbfs
      · exact absurd ⟨bfs_path s src dst, (bfs_path_spec s src dst hne).1 hbfs⟩ hnp

theorem route_422_iff_unreachable_witness :
    wfB exState = true ∧ ((0 : Int) ≠ 1) ∧
      (post_route zeroOps exCfg0 exState exR 0 1 none = RouteResp.unprocessable ↔
        ¬ ∃ p, LinksPath exState 0 1 p) :=
  ⟨by decide, by decide, route_422_iff_unreachable zeroOps exCfg0 exState exR 0 1 none
    (by decide) (by decide)⟩

/-- C2: every path of a 200 answer of `post_route` is non-empty, starts
at `src`, ends at `dst`, and every consecutive pair is a key of
`edge_index` whose indexed link has `enabled = true` at the state the
response is assembled from — whether the path came from the ACO solver
or from the BFS fallback (including the degenerate `src = dst` case,
where the path is `[src]`). -/
theorem route_path_valid (O : RealOps) (cfg : AcoParams) (s : GraphState)
    (r : Nat → ℚ) (src dst : Int) (wopt : Option (ℚ × ℚ × ℚ × ℚ))
    (p : List Int) (c lat thr : ℚ)
    (hres : post_route O cfg s r src dst wopt = RouteResp.ok p c lat thr) :
    p ≠ [] ∧ p.head? = some src ∧ p.getLast? = some dst ∧
      List.Chain' (fun a b => edgeEnabledB s a b = true) p := by
  have hweak : ∀ q, ValidPath s src dst q →
      q ≠ [] ∧ q.head? = some src ∧ q.getLast? = some dst ∧
        List.Chain' (fun a b => edgeEnabledB s a b = true) q := by
    rintro q ⟨h1, h2, h3, h4⟩
    exact ⟨h1, h2, h3, h4.imp (fun _ _ hab => (stepB_dest hab).2)⟩
  cases haco : ACO_solve s cfg wopt r src dst with
  | some pc =>
    obtain ⟨p0, c0⟩ := pc
    have heq := (post_route_some O cfg s r src dst wopt (p0, c0) haco).symm.trans hres
    simp only [RouteResp.ok.injEq] at heq
    rw [← heq.1]
    exact hweak p0 (ACO_solve_sound haco)
  | none =>
    by_cases hbfs : bfs_path s src dst = []
    · rw [post_route_none_nil O cfg s r src dst wopt haco hbfs] at hres
      exact absurd hres (by simp)
    · have heq := (post_route_none_cons O cfg s r src dst wopt haco hbfs).symm.trans hres
      simp only [RouteResp.ok.injEq] at heq
      rw [← heq.1]
      by_cases hsd : src = dst
      · have hb : bfs_path s src dst = [src] := by rw [bfs_path, if_pos hsd]
        rw [hb]
        refine ⟨by simp, rfl, by simp [hsd], by simp⟩
      · exact hweak _ ((bfs_path_spec s src dst hsd).1 hbfs)

theorem route_path_valid_witness :
    ([0, 1] : List Int) ≠ [] ∧ ([0, 1] : List Int).head? = some 0 ∧
      ([0, 1] : List Int).getLast? = some 1 ∧
      List.Chain' (fun a b => edgeEnabledB exState a b = true) [0, 1] :=
  route_path_valid zeroOps exCfg0 exState exR 0 1 none [0, 1]
    (fallbackCost (compute_edge_costs exState
      ((none : Option (ℚ × ℚ × ℚ × ℚ)).getD exCfg0.weights)) [0, 1])
    (path_latency_ms_for_state zeroOps [0, 1] exState.nodes)
    (path_throughput_mbps_for_state zeroOps [0, 1] exState.nodes)
    rfl

/-- C10: `post_route` never looks the node ids up.  With `src = dst` it
answers 200 with path `[src]`, cost 0 and zero metrics — also when
`src` is the id of no node of the graph — and with `src ≠ dst` and no
enabled edge listed out of `src` (in particular an unknown `src`, whose
`adj` entry is absent) it answers 422; no branch of the handler
produces a 404. -/
theorem route_no_validation (O : RealOps) (cfg : AcoParams) (s : GraphState)
    (r : Nat → ℚ) (wopt : Option (ℚ × ℚ × ℚ × ℚ)) (src dst : Int) :
    (src = dst → post_route O cfg s r src dst wopt = RouteResp.ok [src] 0 0 0) ∧
    (src ≠ dst → (∀ v ∈ adjGet s src, edgeEnabledB s src v = false) →
      post_route O cfg s r src dst wopt = RouteResp.unprocessable) := by
  constructor
  · intro hsd
    subst hsd
    exact post_route_self O cfg s r src wopt
  · intro hne hstuck
    exact post_route_none_nil O cfg s r src dst wopt
      (ACO_solve_stuck s cfg wopt r src dst hne hstuck)
      (bfs_path_stuck s src dst hne hstuck)

theorem route_no_validation_witness :
    post_route zeroOps exCfg exState exR 99 99 none = RouteResp.ok [99] 0 0 0 ∧
      post_route zeroOps exCfg exState exR 7 0 none = RouteResp.unprocessable :=
  ⟨(route_no_validation zeroOps exCfg exState exR none 99 99).1 rfl,
   (route_no_validation zeroOps exCfg exState exR none 7 0).2 (by decide) (by decide)⟩

end Sagsin
